import Mathlib

/-!
Shallow embedding of the comment-selection and hybrid-retrieval core of the
reels-maker repository (src/pipelines/indexation.py and
src/pipelines/reddit_comments.py).

Scores are modelled as exact rationals.  The external collaborators (the
sentence-transformer embedding model, the rank_bm25 library scorer and the
cross-encoder re-ranker) are abstracted as score functions passed in an `Ext`
record: the embedding similarity is a pairwise function of the two texts (dot
product of the two fixed normalized vectors), the BM25 scorer is a function of
the indexed corpus and the query returning one score per corpus position, as
`BM25Okapi(tokenized_docs).get_scores(tokenized_query)` does.
-/

namespace ReelsMaker

/-- Python runtime errors that the modelled code can raise. -/
inductive PyErr where
  | attributeError (attr : String)
  | valueError (msg : String)
deriving DecidableEq, Repr

/-- The literal `1e-9` added to the normalization denominator in
`VectorStore.hybrid_search`. -/
def eps : ℚ := 1 / 1000000000

/-- Stable insertion (descending by key): `x` goes before the first element
whose key is ≤ `x`'s.  Together with `pySortDesc` this models Python's stable
`list.sort(key=..., reverse=True)`. -/
def pyInsertDesc {α β : Type} [LinearOrder β] (key : α → β) (x : α) :
    List α → List α
  | [] => [x]
  | y :: ys => if key y ≤ key x then x :: y :: ys else y :: pyInsertDesc key x ys

/-- Stable sort, descending by key (model of `sort(key=..., reverse=True)`). -/
def pySortDesc {α β : Type} [LinearOrder β] (key : α → β) : List α → List α
  | [] => []
  | x :: xs => pyInsertDesc key x (pySortDesc key xs)

/-- Stable insertion (ascending by key). -/
def pyInsertAsc {α β : Type} [LinearOrder β] (key : α → β) (x : α) :
    List α → List α
  | [] => [x]
  | y :: ys => if key x ≤ key y then x :: y :: ys else y :: pyInsertAsc key x ys

/-- Stable sort, ascending by key (model of numpy's argsort order; ties keep
index order). -/
def pySortAsc {α β : Type} [LinearOrder β] (key : α → β) : List α → List α
  | [] => []
  | x :: xs => pyInsertAsc key x (pySortAsc key xs)

/-- Python's `xs[-k:]` slice: for `k = 0` the whole list, otherwise the last
`min k xs.length` elements. -/
def pyLastSlice {α : Type} (k : ℕ) (xs : List α) : List α :=
  if k = 0 then xs else xs.drop (xs.length - k)

/-- Python's `list.index(x)`: position of the first occurrence (length of the
list if absent; the source only calls it on members). -/
def listIndex (l : List String) (t : String) : ℕ :=
  match l with
  | [] => 0
  | x :: xs => if x = t then 0 else listIndex xs t + 1

/-- Distinct elements in first-occurrence order: the key order of a Python
dict built by inserting the given list in order. -/
def dedupFirst : List String → List String
  | [] => []
  | x :: xs => x :: (dedupFirst xs).filter (fun y => y ≠ x)

/-- Lookup in a Python dict represented by its insertion list: the value of
the last insertion with the given key. -/
def dictGet? (l : List (String × ℚ)) (key : String) : Option ℚ :=
  (l.reverse.find? (fun p => p.1 = key)).map (fun p => p.2)

/-- The multiset of values of a Python dict represented by its insertion
list, in key-insertion order: one value per distinct key. -/
def dictValues (l : List (String × ℚ)) : List ℚ :=
  (dedupFirst (l.map (fun p => p.1))).map (fun k => ((dictGet? l k).getD 0))

/-- Minimum of a list of scores (the source only takes it of nonempty dict
values; `0` for `[]` is a junk value never relied upon). -/
def listMin : List ℚ → ℚ
  | [] => 0
  | [x] => x
  | x :: y :: ys => min x (listMin (y :: ys))

/-- Maximum of a list of scores (same convention as `listMin`). -/
def listMax : List ℚ → ℚ
  | [] => 0
  | [x] => x
  | x :: y :: ys => max x (listMax (y :: ys))

/-- External collaborators of the retrieval engine: `sem q d` is the cosine
similarity of the query and document embeddings (a fixed pairwise function,
since each text's normalized embedding is fixed); `bm25 docs q` is the score
array `BM25Okapi([d.split() for d in docs]).get_scores(q.split())`, one entry
per corpus position. -/
structure Ext where
  sem : String → String → ℚ
  bm25 : List String → String → List ℚ

/-- Indices of `scores` sorted by score descending, ties by position
ascending: the order in which the FAISS flat inner-product index reports the
indexed vectors for a query. -/
def argsortDesc (scores : List ℚ) : List ℕ :=
  (pySortDesc (fun p : ℕ × ℚ => p.2) scores.enum).map (fun p => p.1)

/-- Indices of `scores` sorted ascending (numpy `argsort`). -/
def argsortAsc (scores : List ℚ) : List ℕ :=
  (pySortAsc (fun p : ℕ × ℚ => p.2) scores.enum).map (fun p => p.1)

/-- Per-document semantic scores of a query against the indexed corpus. -/
def semScores (ext : Ext) (docs : List String) (q : String) : List ℚ :=
  docs.map (ext.sem q)

/-- `VectorStore.semantic_search` on an indexed corpus: embed and normalize
the query, score every document by inner product, return the top `k` as
`(document, score)` pairs (FAISS yields `-1` indices past the corpus size and
the source drops them, so `min k n` results). -/
def semanticList (ext : Ext) (docs : List String) (q : String) (k : ℕ) :
    List (String × ℚ) :=
  ((argsortDesc (semScores ext docs q)).take k).map
    (fun i => (docs.getD i "", (semScores ext docs q).getD i 0))

/-- `VectorStore.keyword_search` on an indexed corpus:
`[(documents[i], scores[i]) for i in scores.argsort()[-k:][::-1]]`. -/
def keywordList (ext : Ext) (docs : List String) (q : String) (k : ℕ) :
    List (String × ℚ) :=
  ((pyLastSlice k (argsortAsc (ext.bm25 docs q))).reverse).map
    (fun i => (docs.getD i "", (ext.bm25 docs q).getD i 0))

/-- The insertion list of the dict `bm25_results` built in
`VectorStore.hybrid_search` (same index set as `keyword_search`). -/
def bm25Pairs (ext : Ext) (docs : List String) (q : String) (k : ℕ) :
    List (String × ℚ) :=
  ((pyLastSlice k (argsortAsc (ext.bm25 docs q))).reverse).map
    (fun i => (docs.getD i "", (ext.bm25 docs q).getD i 0))

/-- Lexical score a document contributes in `hybrid_search`:
`bm25_results.get(doc, 0.0)`. -/
def bm25Get (ext : Ext) (docs : List String) (q : String) (k : ℕ)
    (d : String) : ℚ :=
  (dictGet? (bm25Pairs ext docs q k) d).getD 0

/-- `min(bm25_results.values())` in `hybrid_search`. -/
def bm25Min (ext : Ext) (docs : List String) (q : String) (k : ℕ) : ℚ :=
  listMin (dictValues (bm25Pairs ext docs q k))

/-- `max(bm25_results.values())` in `hybrid_search`. -/
def bm25Max (ext : Ext) (docs : List String) (q : String) (k : ℕ) : ℚ :=
  listMax (dictValues (bm25Pairs ext docs q k))

/-- The normalized lexical score `hybrid_search` computes for a document:
`(bm25_results.get(doc, 0.0) - min(values)) / (max(values) - min(values) + 1e-9)`.
Note the default raw score `0.0` of a document absent from the lexical top-k
is itself min-max normalized. -/
def normBm25 (ext : Ext) (docs : List String) (q : String) (k : ℕ)
    (d : String) : ℚ :=
  (bm25Get ext docs q k d - bm25Min ext docs q k) /
    (bm25Max ext docs q k - bm25Min ext docs q k + eps)

/-- Semantic score a document contributes in `hybrid_search`:
`vector_scores.get(doc, 0.0)` where `vector_scores` is the dict of the
semantic top-k results. -/
def vecGet (ext : Ext) (docs : List String) (q : String) (k : ℕ)
    (d : String) : ℚ :=
  (dictGet? (semanticList ext docs q k) d).getD 0

/-- The candidate union `all_docs = set(vector_scores) | set(bm25_results)` of
`hybrid_search`.  A Python set iterates in an unspecified (hash-dependent)
order; we fix the insertion order semantic-keys-first.  Theorems whose truth
would depend on the order of equal combined scores therefore carry
distinct-score hypotheses. -/
def allDocs (ext : Ext) (docs : List String) (q : String) (k : ℕ) :
    List String :=
  dedupFirst ((semanticList ext docs q k).map (fun p => p.1) ++
    (bm25Pairs ext docs q k).map (fun p => p.1))

/-- Combined score of one candidate in `hybrid_search`:
`alpha * vec_score + (1 - alpha) * norm_bm25`. -/
def combinedScore (ext : Ext) (docs : List String) (q : String) (k : ℕ)
    (alpha : ℚ) (d : String) : ℚ :=
  alpha * vecGet ext docs q k d + (1 - alpha) * normBm25 ext docs q k d

/-- `VectorStore.hybrid_search` on an indexed corpus: score the union of the
two top-k candidate sets, sort descending (stable), return the top `k`. -/
def hybridList (ext : Ext) (docs : List String) (q : String) (k : ℕ)
    (alpha : ℚ) : List (String × ℚ) :=
  (pySortDesc (fun p : String × ℚ => p.2)
    ((allDocs ext docs q k).map
      (fun d => (d, combinedScore ext docs q k alpha d)))).take k

/-- Search-mode literal of `VectorStore.search`. -/
inductive SearchType where
  | hybrid
  | keyword
  | semantic
deriving DecidableEq, Repr

/-- State of a `VectorStore`: `__init__` sets `index = None`, `documents = []`,
`bm25 = None`; `add_documents` replaces all three.  The FAISS and BM25 index
contents are determined by `documents` together with the external scorers, so
the two index fields only record `None`-ness. -/
structure VectorStore where
  documents : List String
  index : Option Unit
  bm25 : Option Unit

/-- `VectorStore.__init__`. -/
def VectorStore.init : VectorStore :=
  ⟨[], none, none⟩

/-- `VectorStore.add_documents`: replaces the documents and builds both
indices. -/
def VectorStore.add_documents (_vs : VectorStore) (docs : List String) :
    VectorStore :=
  ⟨docs, some (), some ()⟩

/-- `VectorStore.semantic_search`: raises (`AttributeError` on the `None`
index — the spec's `NotIndexed` programming error) when `add_documents` has
never run. -/
def VectorStore.semantic_search (ext : Ext) (vs : VectorStore) (q : String)
    (k : ℕ) : Except PyErr (List (String × ℚ)) :=
  match vs.index with
  | none => .error (.attributeError "search")
  | some _ => .ok (semanticList ext vs.documents q k)

/-- `VectorStore.keyword_search`: raises on the `None` BM25 index when
unindexed. -/
def VectorStore.keyword_search (ext : Ext) (vs : VectorStore) (q : String)
    (k : ℕ) : Except PyErr (List (String × ℚ)) :=
  match vs.bm25 with
  | none => .error (.attributeError "get_scores")
  | some _ => .ok (keywordList ext vs.documents q k)

/-- `VectorStore.hybrid_search`: first the semantic search (whose failure on
an unindexed store propagates), then `self.bm25.get_scores`. -/
def VectorStore.hybrid_search (ext : Ext) (vs : VectorStore) (q : String)
    (k : ℕ) (alpha : ℚ) : Except PyErr (List (String × ℚ)) :=
  match vs.index with
  | none => .error (.attributeError "search")
  | some _ =>
    match vs.bm25 with
    | none => .error (.attributeError "get_scores")
    | some _ => .ok (hybridList ext vs.documents q k alpha)

/-- `ReRanker.rerank`: score every candidate against the query with the
cross-encoder (abstracted as the pairwise function `rr`), sort descending
(stable) and keep the top `k`. -/
def rerankList (rr : String → String → ℚ) (q : String) (docs : List String)
    (k : ℕ) : List (String × ℚ) :=
  (pySortDesc (fun p : String × ℚ => p.2)
    (docs.map (fun d => (d, rr q d)))).take k

/-- `VectorStore.search`: first-stage retrieval in the requested mode
(oversampled `k * 100` when a re-ranker is attached), optional re-ranking,
final `[:k]` truncation.  `rr` is the store's optional re-ranker, abstracted
as a pairwise relevance function. -/
def VectorStore.search (ext : Ext) (rr : Option (String → String → ℚ))
    (vs : VectorStore) (q : String) (k : ℕ) (mode : SearchType) (alpha : ℚ) :
    Except PyErr (List (String × ℚ)) := do
  let kk := match rr with
    | some _ => k * 100
    | none => k
  let results ← match mode with
    | .hybrid => vs.hybrid_search ext q kk alpha
    | .semantic => vs.semantic_search ext q kk
    | .keyword => vs.keyword_search ext q kk
  let results := match rr with
    | some f => rerankList f q (results.map (fun p : String × ℚ => p.1)) k
    | none => results
  pure (results.take k)

/-- `RedditComment` (the fields the selection core reads). -/
structure RedditComment where
  comment_id : String
  post_id : String
  body : String
  author : String
  score : ℤ
  permalink : String
deriving DecidableEq, Repr

instance : Inhabited RedditComment :=
  ⟨⟨"", "", "", "", 0, ""⟩⟩

/-- Python's `str.strip()`: the character sequence with whitespace removed
from both ends. -/
def pyStrip (l : List Char) : List Char :=
  ((l.dropWhile Char.isWhitespace).reverse.dropWhile Char.isWhitespace).reverse

/-- `RedditComment.length`: `len(self.body.strip())`, the number of
characters of the stripped body. -/
def RedditComment.length (c : RedditComment) : ℕ :=
  (pyStrip c.body.data).length

/-- `RedditPost` (the fields the selection core reads). -/
structure RedditPost where
  post_id : String
  comments : List RedditComment
deriving Repr

/-- One iteration `i` of the loop of
`RedditCommentsPipeline.filter_duplicate_comments`, acting on the state
`(unique_comments, seen)`: skip if `i ∈ seen`, otherwise keep `comments[i]`,
add `i` to `seen`, and for every search result whose text differs from
`comment_bodies[i]` and whose score is ≥ `threshold` add
`comment_bodies.index(result_text)` to `seen`.  `searchFn bodies body` stands
for `self.vector_store.hybrid_search(body, k=len(comment_bodies), alpha=alpha)`
run on the store indexed with `bodies`. -/
def dupStep (searchFn : List String → String → List (String × ℚ))
    (threshold : ℚ) (comments : List RedditComment) (bodies : List String)
    (st : List RedditComment × List ℕ) (i : ℕ) :
    List RedditComment × List ℕ :=
  if i ∈ st.2 then st
  else
    let body := bodies.getD i ""
    let supp := (searchFn bodies body).filterMap
      (fun r => if r.1 ≠ body ∧ threshold ≤ r.2 then some (listIndex bodies r.1)
        else none)
    (st.1 ++ [comments.getD i default], (st.2 ++ [i]) ++ supp)

/-- `RedditCommentsPipeline.filter_duplicate_comments`, generalized over the
retrieval call: empty in, empty out; otherwise index the bodies and walk the
positions in order with `dupStep`. -/
def filterDupWith (searchFn : List String → String → List (String × ℚ))
    (threshold : ℚ) (comments : List RedditComment) : List RedditComment :=
  if comments.isEmpty then []
  else
    ((List.range comments.length).foldl
      (dupStep searchFn threshold comments (comments.map (fun c => c.body)))
      ([], [])).1

/-- The retrieval call of the duplicate filter:
`self.vector_store.hybrid_search(body, k=len(comment_bodies), alpha=alpha)`
against the store freshly indexed with the comment bodies. -/
def dupSearch (ext : Ext) (alpha : ℚ) :
    List String → String → List (String × ℚ) :=
  fun docs q => hybridList ext docs q docs.length alpha

/-- The comment bodies list `comment_bodies = [c.body for c in comments]`. -/
def bodiesOf (comments : List RedditComment) : List String :=
  comments.map (fun c => c.body)

/-- `RedditCommentsPipeline.filter_duplicate_comments` proper. -/
def filter_duplicate_comments (ext : Ext) (comments : List RedditComment)
    (threshold : ℚ) (alpha : ℚ) : List RedditComment :=
  filterDupWith (dupSearch ext alpha) threshold comments

/-- The duration-budget loop of `RedditCommentsPipeline.get_comments`
(lines 110-132): synthesize each comment in order (`dur` abstracts
`get_audio_duration` of the synthesized clip), add its duration, keep it; if
the running total is still below the target add the inter-clip silence and
continue, otherwise stop. -/
def selectLoop (dur : RedditComment → ℚ) (minDuration silence : ℚ) :
    List RedditComment → ℚ → List RedditComment
  | [], _ => []
  | c :: rest, acc =>
    let acc' := acc + dur c
    if acc' < minDuration then c :: selectLoop dur minDuration silence rest (acc' + silence)
    else [c]

/-- The configuration of `RedditCommentsPipeline` that the selection core
reads (`settings.MIN_VIDEO_DURATION` is the configured target, 70.0 by
default; `silence_duration` defaults to 0.2; `max_comment_length` to 150;
`remove_duplicates` to `True`; `sort_by_score` to `False`). -/
structure RedditCommentsPipeline where
  max_comment_length : ℕ
  silence_duration : ℚ
  min_video_duration : ℚ
  remove_duplicates : Bool
  sort_by_score : Bool

/-- `RedditCommentsPipeline.get_comments`: length-filter the post's comments,
optionally sort by descending score (Python's stable `sorted(...,
reverse=True)`), optionally filter duplicates, then run the duration-budget
loop. -/
def RedditCommentsPipeline.get_comments (p : RedditCommentsPipeline)
    (ext : Ext) (dur : RedditComment → ℚ) (post : RedditPost)
    (sort_by_score : Bool) (filter_duplicates : Bool) : List RedditComment :=
  let comments := post.comments.filter
    (fun c => c.length ≤ p.max_comment_length)
  let comments := if sort_by_score then
    pySortDesc (fun c : RedditComment => c.score) comments else comments
  let comments := if filter_duplicates then
    filter_duplicate_comments ext comments (80 / 100) (1 / 2) else comments
  selectLoop dur p.min_video_duration p.silence_duration comments 0

/-- The comment-selection call of `RedditCommentsPipeline.run` (line 518):
`self.get_comments(post, self.remove_duplicates, self.sort_by_score)` — the
two flags are passed positionally, so `remove_duplicates` lands in
`get_comments`' `sort_by_score` parameter and `sort_by_score` in its
`filter_duplicates` parameter. -/
def RedditCommentsPipeline.run_select (p : RedditCommentsPipeline) (ext : Ext)
    (dur : RedditComment → ℚ) (post : RedditPost) : List RedditComment :=
  p.get_comments ext dur post p.remove_duplicates p.sort_by_score

namespace PyRuntime

/-- Attribute model of the `Embeddings` instances the source constructs:
`__init__` stores `model_name`, `_model` and `_device` in the instance dict.
The two `@property` functions `device` and `model` are defined as local
functions inside `__init__` and are never attached to the instance or the
class, so they create no attribute. -/
def Embeddings.instanceAttrs : List String :=
  ["model_name", "_model", "_device"]

/-- Attributes of the `Embeddings` class object: its two `def`s. -/
def Embeddings.classAttrs : List String :=
  ["__init__", "encode"]

/-- Python attribute lookup on an `Embeddings` instance: instance dict first,
then the class. -/
def Embeddings.hasattr (name : String) : Bool :=
  name ∈ Embeddings.instanceAttrs || name ∈ Embeddings.classAttrs

/-- `Embeddings.encode`: evaluates `self.model.encode(text)`, whose first step
is the attribute lookup `self.model`; when the lookup fails the
`AttributeError` propagates.  The success value is abstracted (it is never
reached): `()` stands for the returned embedding array. -/
def Embeddings.encode (_text : String ⊕ List String) : Except PyErr Unit :=
  if Embeddings.hasattr "model" then
    .ok ()
  else
    .error (.attributeError "model")

/-- `VectorStore.add_documents` as executed: its first statement after storing
the documents is `self.embeddings.encode(documents)`; an exception there
propagates and the FAISS/BM25 index construction below it is never reached
(abstracted by `()`). -/
def addDocumentsRun (docs : List String) : Except PyErr Unit := do
  let _ ← Embeddings.encode (Sum.inr docs)
  .ok ()

/-- `RedditCommentsPipeline.filter_duplicate_comments` as executed: the empty
list returns `[]` before touching the store; otherwise
`self.vector_store.add_documents(comment_bodies)` runs first and its exception
propagates, so the dedup walk below it (which would compute
`filterDupWith`-style results) is never reached. -/
def filterDuplicateCommentsRun (comments : List RedditComment)
    (rest : List RedditComment) : Except PyErr (List RedditComment) :=
  if comments.isEmpty then .ok []
  else do
    let _ ← addDocumentsRun (comments.map (fun c => c.body))
    .ok rest

end PyRuntime

/-- Sum of the synthesized durations of the first `j` candidates. -/
def spokenSum (dur : RedditComment → ℚ) (cs : List RedditComment) (j : ℕ) : ℚ :=
  ((cs.take j).map dur).sum

/-- Does anchor `a` suppress position `b` in the duplicate filter, when the
pairwise combined score of two bodies is the corpus-independent `f`?  This is
the condition `sim_body != body and score >= threshold` of the inner loop. -/
def dupQ (f : String → String → ℚ) (th : ℚ) (bodies : List String)
    (a b : ℕ) : Bool :=
  decide (bodies.getD a "" ≠ bodies.getD b "" ∧
    th ≤ f (bodies.getD a "") (bodies.getD b ""))

/-- A retrieval backend that reports, for every indexed corpus, exactly the
corpus's distinct texts, each scored against the query by the
corpus-independent pairwise function `f`.  (The hypothesis class under which
the duplicate filter is a fixed point; the real hybrid backend is not of this
form because its BM25 scores and min-max normalization depend on the corpus.) -/
def flatSearch (f : String → String → ℚ) :
    List String → String → List (String × ℚ) :=
  fun corpus q => (dedupFirst corpus).map (fun t => (t, f q t))

/-- Positions kept by the duplicate-filter walk over positions `0..m-1` when
anchor `a` suppresses position `b` iff `Q a b`: a position is kept iff no
earlier kept position suppresses it. -/
def keptList (Q : ℕ → ℕ → Bool) : ℕ → List ℕ
  | 0 => []
  | m + 1 =>
    let ks := keptList Q m
    if ks.all (fun a => ! Q a m) then ks ++ [m] else ks

/-- Concrete comment fixture. -/
def mkC (i : String) (b : String) (sc : ℤ) : RedditComment :=
  ⟨i, "", b, "", sc, ""⟩

/-- Fixture for the run-call flag swap: two short comments, distinct scores. -/
def ca1 : RedditComment := mkC "1" "aa" 1

/-- Fixture comment with the higher score. -/
def cb1 : RedditComment := mkC "2" "bb" 5

/-- Fixture scorers making the two bodies near-duplicates (combined score of
`bb` against query `aa` is about 0.975 ≥ 0.8). -/
def ext1 : Ext :=
  ⟨fun q d => if q = d then 1 else 19 / 20,
   fun docs q => match docs, q with
    | ["aa", "bb"], "aa" => [1, 3]
    | ["bb", "aa"], "bb" => [1, 3]
    | _, _ => docs.map (fun _ => 0)⟩

/-- Fixture pipeline with the constructor defaults
(`remove_duplicates = True`, `sort_by_score = False`). -/
def p1 : RedditCommentsPipeline := ⟨150, 1 / 5, 70, true, false⟩

/-- Fixture post holding the two comments in unsorted order. -/
def post1 : RedditPost := ⟨"p", [ca1, cb1]⟩

/-- Fixture durations: every clip lasts 1 second. -/
def dur1 : RedditComment → ℚ := fun _ => 1

/-- Fixture comment of the spec's duration scenario, id 1 (4 seconds). -/
def cA : RedditComment := mkC "1" "ca" 10

/-- Fixture comment of the spec's duration scenario, id 3 (7 seconds). -/
def cB : RedditComment := mkC "3" "cb" 8

/-- Durations of the spec scenario: comment 1 lasts 4 s, comment 3 lasts 7 s. -/
def dur2 : RedditComment → ℚ := fun c => if c.comment_id = "1" then 4 else 7

/-- Fixture scorers for the hybrid-score shape: document `a` is semantic-only
(absent from the lexical top-2), and the lexical minimum is positive. -/
def ext4 : Ext :=
  ⟨fun q d => match q, d with
    | "q", "a" => 9 / 10
    | "q", "b" => 8 / 10
    | "q", "c" => 1 / 10
    | _, _ => 0,
   fun docs q => match docs, q with
    | ["a", "b", "c"], "q" => [1 / 2, 1, 3]
    | _, _ => docs.map (fun _ => 0)⟩

/-- Fixture scorers where document `b` has a negative cosine with the query
and document `c` is lexical-only. -/
def ext6 : Ext :=
  ⟨fun q d => match q, d with
    | "q", "a" => 9 / 10
    | "q", "b" => -(1 / 2)
    | "q", "c" => -(6 / 10)
    | _, _ => 0,
   fun docs q => match docs, q with
    | ["a", "b", "c"], "q" => [1, 2, 5]
    | _, _ => docs.map (fun _ => 0)⟩

/-- Fixture scorers for a corpus of two byte-identical documents. -/
def ext7 : Ext :=
  ⟨fun _ _ => 1 / 2, fun docs _ => docs.map (fun _ => 1)⟩

/-- Fixture scorers where all top-k lexical scores are equal (and positive)
while document `a` is semantic-only. -/
def ext10 : Ext :=
  ⟨fun q d => match q, d with
    | "q", "a" => 9 / 10
    | "q", "b" => 8 / 10
    | "q", "c" => 1 / 10
    | _, _ => 0,
   fun docs q => match docs, q with
    | ["a", "b", "c"], "q" => [2, 2, 2]
    | _, _ => docs.map (fun _ => 0)⟩

/-- Fixture scorers with pairwise-distinct positive scores on both sides
over the corpus `["x", "y", "z"]`: cosines 0.9, 0.7, 0.1 and BM25 scores
1, 3, 7. -/
def extGood : Ext :=
  ⟨fun q d => match q, d with
    | "q", "x" => 9 / 10
    | "q", "y" => 7 / 10
    | "q", "z" => 1 / 10
    | _, _ => 1 / 2,
   fun docs q => match docs, q with
    | ["x", "y", "z"], "q" => [1, 3, 7]
    | _, _ => docs.map (fun _ => 0)⟩

/-- Near-duplicate fixture body. -/
def b0 : String := "great point"

/-- Near-duplicate fixture body (shared by two input comments). -/
def b1 : String := "great point indeed"

/-- Unrelated fixture body. -/
def b3 : String := "unrelated"

/-- Fixture scorers: symmetric cosines (0.9 for the near-duplicate pair, 0.1
otherwise), BM25-like lexical scores that are zero when the query and the
document share no token. -/
def ext8 : Ext :=
  ⟨fun q d =>
    if q = d then 1
    else if (q = b0 ∧ d = b1) ∨ (q = b1 ∧ d = b0) then 9 / 10
    else 1 / 10,
   fun docs q =>
    if docs = [b0, b1, b1, b3] ∨ docs = [b0, b1, b3] then
      (if q = b0 then
        docs.map (fun d => if d = b0 then 3 else if d = b1 then 5 / 2 else 0)
       else if q = b1 then
        docs.map (fun d => if d = b0 then 5 / 2 else if d = b1 then 16 / 5 else 0)
       else docs.map (fun d => if d = b3 then 14 / 5 else 0))
    else docs.map (fun _ => 0)⟩

/-- Fixture comment list with two byte-identical bodies (positions 1 and 2). -/
def comments8 : List RedditComment :=
  [mkC "0" b0 0, mkC "1" b1 0, mkC "2" b1 0, mkC "3" b3 0]

/-! ### Structural lemmas about the Python-faithful helpers -/

theorem pyInsertDesc_perm {α β : Type} [LinearOrder β] (key : α → β) (x : α)
    (l : List α) : (pyInsertDesc key x l).Perm (x :: l) := by
  induction l with
  | nil => simp [pyInsertDesc]
  | cons y ys ih =>
    by_cases h : key y ≤ key x
    · simp [pyInsertDesc, h]
    · simp only [pyInsertDesc, if_neg h]
      exact (List.Perm.cons y ih).trans (List.Perm.swap x y ys)

theorem pySortDesc_perm {α β : Type} [LinearOrder β] (key : α → β)
    (l : List α) : (pySortDesc key l).Perm l := by
  induction l with
  | nil => simp [pySortDesc]
  | cons x xs ih =>
    exact (pyInsertDesc_perm key x (pySortDesc key xs)).trans
      (List.Perm.cons x ih)

theorem pySortDesc_length {α β : Type} [LinearOrder β] (key : α → β)
    (l : List α) : (pySortDesc key l).length = l.length :=
  (pySortDesc_perm key l).length_eq

theorem pyInsertDesc_pairwise {α β : Type} [LinearOrder β] (key : α → β)
    (x : α) (l : List α) (h : l.Pairwise (fun a b => key b ≤ key a)) :
    (pyInsertDesc key x l).Pairwise (fun a b => key b ≤ key a) := by
  induction l with
  | nil => simp [pyInsertDesc]
  | cons y ys ih =>
    rcases List.pairwise_cons.mp h with ⟨hy, hys⟩
    by_cases hle : key y ≤ key x
    · simp only [pyInsertDesc, if_pos hle]
      refine List.pairwise_cons.mpr ⟨?_, h⟩
      intro z hz
      rcases List.mem_cons.mp hz with rfl | hz'
      · exact hle
      · exact le_trans (hy z hz') hle
    · simp only [pyInsertDesc, if_neg hle]
      refine List.pairwise_cons.mpr ⟨?_, ih hys⟩
      intro z hz
      rcases List.mem_cons.mp ((pyInsertDesc_perm key x ys).mem_iff.mp hz) with
        rfl | hz'
      · exact le_of_lt (not_le.mp hle)
      · exact hy z hz'

theorem pySortDesc_pairwise {α β : Type} [LinearOrder β] (key : α → β)
    (l : List α) :
    (pySortDesc key l).Pairwise (fun a b => key b ≤ key a) := by
  induction l with
  | nil => simp [pySortDesc]
  | cons x xs ih => exact pyInsertDesc_pairwise key x (pySortDesc key xs) ih

theorem pyInsertAsc_perm {α β : Type} [LinearOrder β] (key : α → β) (x : α)
    (l : List α) : (pyInsertAsc key x l).Perm (x :: l) := by
  induction l with
  | nil => simp [pyInsertAsc]
  | cons y ys ih =>
    by_cases h : key x ≤ key y
    · simp [pyInsertAsc, h]
    · simp only [pyInsertAsc, if_neg h]
      exact (List.Perm.cons y ih).trans (List.Perm.swap x y ys)

theorem pySortAsc_perm {α β : Type} [LinearOrder β] (key : α → β)
    (l : List α) : (pySortAsc key l).Perm l := by
  induction l with
  | nil => simp [pySortAsc]
  | cons x xs ih =>
    exact (pyInsertAsc_perm key x (pySortAsc key xs)).trans
      (List.Perm.cons x ih)

theorem pyInsertAsc_pairwise {α β : Type} [LinearOrder β] (key : α → β)
    (x : α) (l : List α) (h : l.Pairwise (fun a b => key a ≤ key b)) :
    (pyInsertAsc key x l).Pairwise (fun a b => key a ≤ key b) := by
  induction l with
  | nil => simp [pyInsertAsc]
  | cons y ys ih =>
    rcases List.pairwise_cons.mp h with ⟨hy, hys⟩
    by_cases hle : key x ≤ key y
    · simp only [pyInsertAsc, if_pos hle]
      refine List.pairwise_cons.mpr ⟨?_, h⟩
      intro z hz
      rcases List.mem_cons.mp hz with rfl | hz'
      · exact hle
      · exact le_trans hle (hy z hz')
    · simp only [pyInsertAsc, if_neg hle]
      refine List.pairwise_cons.mpr ⟨?_, ih hys⟩
      intro z hz
      rcases List.mem_cons.mp ((pyInsertAsc_perm key x ys).mem_iff.mp hz) with
        rfl | hz'
      · exact le_of_lt (not_le.mp hle)
      · exact hy z hz'

theorem pySortAsc_pairwise {α β : Type} [LinearOrder β] (key : α → β)
    (l : List α) :
    (pySortAsc key l).Pairwise (fun a b => key a ≤ key b) := by
  induction l with
  | nil => simp [pySortAsc]
  | cons x xs ih => exact pyInsertAsc_pairwise key x (pySortAsc key xs) ih

theorem take_sorted_eq {P B T : List (String × ℚ)}
    (hperm : P.Perm (B ++ T))
    (hP : P.Pairwise (fun a b => b.2 ≤ a.2))
    (hB : B.Pairwise (fun a b => b.2 < a.2))
    (hBT : ∀ b ∈ B, ∀ t ∈ T, t.2 < b.2) :
    P.take B.length = B := by
  induction B generalizing P T with
  | nil => simp
  | cons b B' ih =>
    cases P with
    | nil =>
      have := hperm.length_eq
      simp at this
    | cons p P' =>
      have hpmem : p ∈ b :: (B' ++ T) := hperm.mem_iff.mp (by simp)
      have hbmem : b ∈ p :: P' := hperm.mem_iff.mpr (by simp)
      have hple : b.2 ≤ p.2 := by
        rcases List.mem_cons.mp hbmem with h | h
        · rw [h]
        · exact (List.pairwise_cons.mp hP).1 b h
      have hpb : p = b := by
        rcases List.mem_cons.mp hpmem with h | h
        · exact h
        · exfalso
          rcases List.mem_append.mp h with h1 | h2
          · exact absurd hple
              (not_le.mpr ((List.pairwise_cons.mp hB).1 p h1))
          · exact absurd hple
              (not_le.mpr (hBT b (List.mem_cons_self b B') p h2))
      subst hpb
      have hperm' : P'.Perm (B' ++ T) := hperm.cons_inv
      have htail : P'.take B'.length = B' :=
        ih hperm' (List.pairwise_cons.mp hP).2 (List.pairwise_cons.mp hB).2
          (fun x hx t ht => hBT x (List.mem_cons_of_mem p hx) t ht)
      simp [List.take_cons, htail]

theorem dedupFirst_mem {l : List String} {a : String} :
    a ∈ dedupFirst l ↔ a ∈ l := by
  induction l with
  | nil => simp [dedupFirst]
  | cons x xs ih =>
    by_cases hax : a = x
    · simp [dedupFirst, hax]
    · simp [dedupFirst, hax, List.mem_filter, ih]

theorem dedupFirst_nodup (l : List String) : (dedupFirst l).Nodup := by
  induction l with
  | nil => simp [dedupFirst]
  | cons x xs ih =>
    simp only [dedupFirst, List.nodup_cons]
    constructor
    · intro hx
      exact absurd (of_decide_eq_true (List.mem_filter.mp hx).2) (by simp)
    · exact ih.filter _

theorem dedupFirst_eq_self {l : List String} (h : l.Nodup) :
    dedupFirst l = l := by
  induction l with
  | nil => rfl
  | cons x xs ih =>
    rcases List.nodup_cons.mp h with ⟨hx, hxs⟩
    simp only [dedupFirst, ih hxs]
    congr 1
    rw [List.filter_eq_self]
    intro a ha
    simp only [decide_eq_true_eq]
    intro hax
    exact hx (hax ▸ ha)

theorem dedupFirst_append_left {l1 l2 : List String} (h : l1.Nodup) :
    dedupFirst (l1 ++ l2) =
      l1 ++ (dedupFirst l2).filter (fun y => decide (y ∉ l1)) := by
  induction l1 with
  | nil => simp
  | cons x xs ih =>
    rcases List.nodup_cons.mp h with ⟨hx, hxs⟩
    calc dedupFirst (x :: xs ++ l2)
        = x :: (dedupFirst (xs ++ l2)).filter (fun y => decide (y ≠ x)) := rfl
      _ = x :: (xs ++ (dedupFirst l2).filter
            (fun y => decide (y ∉ xs))).filter (fun y => decide (y ≠ x)) := by
          rw [ih hxs]
      _ = x :: (xs.filter (fun y => decide (y ≠ x)) ++
            ((dedupFirst l2).filter (fun y => decide (y ∉ xs))).filter
              (fun y => decide (y ≠ x))) := by rw [List.filter_append]
      _ = x :: (xs ++
            (dedupFirst l2).filter (fun y => decide (y ∉ x :: xs))) := by
          congr 1
          congr 1
          · rw [List.filter_eq_self]
            intro a ha
            simp only [decide_eq_true_eq]
            intro hax
            exact hx (hax ▸ ha)
          · rw [List.filter_filter]
            apply List.filter_congr
            intro a _
            by_cases h1 : a = x <;> by_cases h2 : a ∈ xs <;> simp [h1, h2]
      _ = (x :: xs) ++
            (dedupFirst l2).filter (fun y => decide (y ∉ x :: xs)) := rfl

theorem listIndex_lt_length {l : List String} {t : String} (h : t ∈ l) :
    listIndex l t < l.length := by
  induction l with
  | nil => simp at h
  | cons x xs ih =>
    by_cases hxt : x = t
    · simp [listIndex, hxt]
    · rcases List.mem_cons.mp h with h1 | h2
      · exact absurd h1.symm hxt
      · simp only [listIndex, if_neg hxt, List.length_cons]
        exact Nat.succ_lt_succ (ih h2)

theorem getD_listIndex {l : List String} {t : String} (h : t ∈ l) :
    l.getD (listIndex l t) "" = t := by
  induction l with
  | nil => simp at h
  | cons x xs ih =>
    by_cases hxt : x = t
    · simp [listIndex, hxt]
    · rcases List.mem_cons.mp h with h1 | h2
      · exact absurd h1.symm hxt
      · simp only [listIndex, if_neg hxt]
        exact ih h2

theorem listIndex_first (l : List String) (t : String) :
    ∀ i < listIndex l t, l.getD i "" ≠ t := by
  induction l with
  | nil => simp [listIndex]
  | cons x xs ih =>
    intro i hi
    by_cases hxt : x = t
    · simp [listIndex, hxt] at hi
    · simp only [listIndex, if_neg hxt] at hi
      cases i with
      | zero => simpa using hxt
      | succ j =>
        simpa using ih j (Nat.lt_of_succ_lt_succ hi)

theorem listIndex_getD {l : List String} (h : l.Nodup) {i : ℕ}
    (hi : i < l.length) : listIndex l (l.getD i "") = i := by
  induction l generalizing i with
  | nil => simp at hi
  | cons x xs ih =>
    rcases List.nodup_cons.mp h with ⟨hx, hxs⟩
    cases i with
    | zero => simp [listIndex]
    | succ j =>
      have hj : j < xs.length := Nat.lt_of_succ_lt_succ hi
      have hmem : xs.getD j "" ∈ xs := by
        rw [List.getD_eq_getElem xs "" hj]
        exact List.getElem_mem hj
      have hne : x ≠ xs.getD j "" := fun hcon => hx (hcon ▸ hmem)
      simp only [List.getD_cons_succ, listIndex, if_neg hne]
      rw [ih hxs hj]

theorem dictGet?_cons_of_mem {p : String × ℚ} {l : List (String × ℚ)}
    {d : String} (h : d ∈ l.map (fun r => r.1)) :
    dictGet? (p :: l) d = dictGet? l d := by
  rcases List.mem_map.mp h with ⟨r, hr, hrd⟩
  have hsome : (l.reverse.find? (fun r => decide (r.1 = d))).isSome := by
    rw [List.find?_isSome]
    exact ⟨r, List.mem_reverse.mpr hr, by simp [hrd]⟩
  rcases Option.isSome_iff_exists.mp hsome with ⟨v, hv⟩
  simp [dictGet?, List.find?_append, hv]

theorem dictGet?_cons_self {p : String × ℚ} {l : List (String × ℚ)}
    (h : p.1 ∉ l.map (fun r => r.1)) :
    dictGet? (p :: l) p.1 = some p.2 := by
  have hnone : l.reverse.find? (fun r => decide (r.1 = p.1)) = none := by
    rw [List.find?_eq_none]
    intro x hx
    simp only [decide_eq_true_eq]
    intro hcon
    exact h (List.mem_map.mpr ⟨x, List.mem_reverse.mp hx, hcon⟩)
  simp [dictGet?, List.find?_append, hnone]

theorem dictGet?_eq_none {l : List (String × ℚ)} {d : String}
    (h : d ∉ l.map (fun r => r.1)) : dictGet? l d = none := by
  have hnone : l.reverse.find? (fun r => decide (r.1 = d)) = none := by
    rw [List.find?_eq_none]
    intro x hx
    simp only [decide_eq_true_eq]
    intro hcon
    exact h (List.mem_map.mpr ⟨x, List.mem_reverse.mp hx, hcon⟩)
  simp [dictGet?, hnone]

theorem dict_reconstruct {l : List (String × ℚ)}
    (h : (l.map (fun r => r.1)).Nodup) :
    (l.map (fun r => r.1)).map
      (fun d => (d, (dictGet? l d).getD 0)) = l := by
  induction l with
  | nil => rfl
  | cons p t ih =>
    rcases List.nodup_cons.mp h with ⟨hp, ht⟩
    simp only [List.map_cons]
    congr 1
    · rw [dictGet?_cons_self hp]
      rfl
    · rw [List.map_congr_left, ih ht]
      intro d hd
      rw [dictGet?_cons_of_mem hd]


theorem dictGet?_of_mem_nodup {l : List (String × ℚ)}
    (h : (l.map (fun r => r.1)).Nodup) {p : String × ℚ} (hp : p ∈ l) :
    dictGet? l p.1 = some p.2 := by
  induction l with
  | nil => simp at hp
  | cons q t ih =>
    rcases List.nodup_cons.mp h with ⟨hq, ht⟩
    rcases List.mem_cons.mp hp with h1 | h2
    · subst h1
      exact dictGet?_cons_self hq
    · have hd : p.1 ∈ t.map (fun r => r.1) :=
        List.mem_map.mpr ⟨p, h2, rfl⟩
      rw [dictGet?_cons_of_mem hd]
      exact ih ht h2

theorem dictGet?_mem_values {l : List (String × ℚ)} {d : String}
    (h : d ∈ l.map (fun r => r.1)) :
    ∃ v, dictGet? l d = some v ∧ v ∈ dictValues l := by
  have hsome : (l.reverse.find? (fun r => decide (r.1 = d))).isSome := by
    rw [List.find?_isSome]
    rcases List.mem_map.mp h with ⟨r, hr, hrd⟩
    exact ⟨r, List.mem_reverse.mpr hr, by simp [hrd]⟩
  rcases Option.isSome_iff_exists.mp hsome with ⟨v, hv⟩
  refine ⟨v.2, by simp [dictGet?, hv], ?_⟩
  have hd : d ∈ dedupFirst (l.map (fun r => r.1)) := dedupFirst_mem.mpr h
  have : (dictGet? l d).getD 0 = v.2 := by simp [dictGet?, hv]
  exact this ▸ List.mem_map.mpr ⟨d, hd, rfl⟩

theorem listMin_le {l : List ℚ} : ∀ x ∈ l, listMin l ≤ x := by
  induction l with
  | nil => simp
  | cons a t ih =>
    intro x hx
    cases t with
    | nil =>
      rcases List.mem_singleton.mp hx with rfl
      simp [listMin]
    | cons b u =>
      rcases List.mem_cons.mp hx with rfl | hx'
      · simp [listMin]
      · exact le_trans (min_le_right _ _) (ih x hx')

theorem le_listMax {l : List ℚ} : ∀ x ∈ l, x ≤ listMax l := by
  induction l with
  | nil => simp
  | cons a t ih =>
    intro x hx
    cases t with
    | nil =>
      rcases List.mem_singleton.mp hx with rfl
      simp [listMax]
    | cons b u =>
      rcases List.mem_cons.mp hx with rfl | hx'
      · simp [listMax]
      · exact le_trans (ih x hx') (le_max_right _ _)

theorem listMax_mem {l : List ℚ} (h : l ≠ []) : listMax l ∈ l := by
  induction l with
  | nil => exact absurd rfl h
  | cons a t ih =>
    cases t with
    | nil => simp [listMax]
    | cons b u =>
      rcases max_cases a (listMax (b :: u)) with ⟨heq, _⟩ | ⟨heq, _⟩
      · simp [listMax, heq]
      · have := ih (by simp)
        simp only [listMax, heq]
        exact List.mem_cons_of_mem a this

theorem argsortDesc_perm (scores : List ℚ) :
    (argsortDesc scores).Perm (List.range scores.length) := by
  have h1 := (pySortDesc_perm (fun p : ℕ × ℚ => p.2) scores.enum).map
    (fun p : ℕ × ℚ => p.1)
  have h2 : scores.enum.map (fun p : ℕ × ℚ => p.1) =
      List.range scores.length := List.enum_map_fst scores
  exact (h2 ▸ h1 : _)

theorem argsortDesc_length (scores : List ℚ) :
    (argsortDesc scores).length = scores.length := by
  have := (argsortDesc_perm scores).length_eq
  simpa using this

theorem argsortDesc_nodup (scores : List ℚ) : (argsortDesc scores).Nodup :=
  ((argsortDesc_perm scores).nodup_iff).mpr (List.nodup_range _)

theorem argsortDesc_mem_lt {scores : List ℚ} {i : ℕ}
    (h : i ∈ argsortDesc scores) : i < scores.length :=
  List.mem_range.mp ((argsortDesc_perm scores).mem_iff.mp h)

theorem argsortDesc_sorted (scores : List ℚ) :
    (argsortDesc scores).Pairwise
      (fun i j => scores.getD j 0 ≤ scores.getD i 0) := by
  have h1 := pySortDesc_pairwise (fun p : ℕ × ℚ => p.2) scores.enum
  have hmem : ∀ p ∈ pySortDesc (fun p : ℕ × ℚ => p.2) scores.enum,
      p.2 = scores.getD p.1 0 := by
    intro p hp
    have hpe : p ∈ scores.enum :=
      (pySortDesc_perm (fun p : ℕ × ℚ => p.2) scores.enum).mem_iff.mp hp
    rcases p with ⟨i, x⟩
    rcases List.mem_enum hpe with ⟨hlt, hval⟩
    rw [hval, List.getD_eq_getElem scores 0 hlt]
  have h2 : (pySortDesc (fun p : ℕ × ℚ => p.2) scores.enum).Pairwise
      (fun p q : ℕ × ℚ => scores.getD q.1 0 ≤ scores.getD p.1 0) := by
    refine List.Pairwise.imp_of_mem ?_ h1
    intro a b ha hb hr
    rw [← hmem a ha, ← hmem b hb]
    exact hr
  exact List.pairwise_map.mpr h2

theorem argsortAsc_perm (scores : List ℚ) :
    (argsortAsc scores).Perm (List.range scores.length) := by
  have h1 := (pySortAsc_perm (fun p : ℕ × ℚ => p.2) scores.enum).map
    (fun p : ℕ × ℚ => p.1)
  have h2 : scores.enum.map (fun p : ℕ × ℚ => p.1) =
      List.range scores.length := List.enum_map_fst scores
  exact (h2 ▸ h1 : _)

theorem argsortAsc_length (scores : List ℚ) :
    (argsortAsc scores).length = scores.length := by
  have := (argsortAsc_perm scores).length_eq
  simpa using this

theorem argsortAsc_nodup (scores : List ℚ) : (argsortAsc scores).Nodup :=
  ((argsortAsc_perm scores).nodup_iff).mpr (List.nodup_range _)

theorem argsortAsc_mem_lt {scores : List ℚ} {i : ℕ}
    (h : i ∈ argsortAsc scores) : i < scores.length :=
  List.mem_range.mp ((argsortAsc_perm scores).mem_iff.mp h)

theorem argsortAsc_sorted (scores : List ℚ) :
    (argsortAsc scores).Pairwise
      (fun i j => scores.getD i 0 ≤ scores.getD j 0) := by
  have h1 := pySortAsc_pairwise (fun p : ℕ × ℚ => p.2) scores.enum
  have hmem : ∀ p ∈ pySortAsc (fun p : ℕ × ℚ => p.2) scores.enum,
      p.2 = scores.getD p.1 0 := by
    intro p hp
    have hpe : p ∈ scores.enum :=
      (pySortAsc_perm (fun p : ℕ × ℚ => p.2) scores.enum).mem_iff.mp hp
    rcases p with ⟨i, x⟩
    rcases List.mem_enum hpe with ⟨hlt, hval⟩
    rw [hval, List.getD_eq_getElem scores 0 hlt]
  have h2 : (pySortAsc (fun p : ℕ × ℚ => p.2) scores.enum).Pairwise
      (fun p q : ℕ × ℚ => scores.getD p.1 0 ≤ scores.getD q.1 0) := by
    refine List.Pairwise.imp_of_mem ?_ h1
    intro a b ha hb hr
    rw [← hmem a ha, ← hmem b hb]
    exact hr
  exact List.pairwise_map.mpr h2

/-! ### Claim theorems -/

attribute [local semireducible] Rat.add Rat.mul Rat.inv Rat.sub

theorem spokenSum_zero (dur : RedditComment → ℚ) (cs : List RedditComment) :
    spokenSum dur cs 0 = 0 := by
  simp [spokenSum]

theorem spokenSum_succ_cons (dur : RedditComment → ℚ) (c : RedditComment)
    (rest : List RedditComment) (j : ℕ) :
    spokenSum dur (c :: rest) (j + 1) = dur c + spokenSum dur rest j := by
  simp [spokenSum]

theorem selectLoop_spec (dur : RedditComment → ℚ) (m s : ℚ) :
    ∀ (cs : List RedditComment) (acc : ℚ),
      selectLoop dur m s cs acc =
        cs.take (selectLoop dur m s cs acc).length ∧
      (cs ≠ [] → selectLoop dur m s cs acc ≠ []) ∧
      (∀ j : ℕ, 1 ≤ j → j < (selectLoop dur m s cs acc).length →
        acc + spokenSum dur cs j + s * ((j : ℚ) - 1) < m) ∧
      ((selectLoop dur m s cs acc).length < cs.length →
        m ≤ acc + spokenSum dur cs (selectLoop dur m s cs acc).length +
          s * (((selectLoop dur m s cs acc).length : ℚ) - 1)) := by
  intro cs
  induction cs with
  | nil =>
    intro acc
    exact ⟨rfl, fun hc => absurd rfl hc, by simp [selectLoop],
      by simp [selectLoop]⟩
  | cons c rest ih =>
    intro acc
    by_cases hlt : acc + dur c < m
    · have heq : selectLoop dur m s (c :: rest) acc =
          c :: selectLoop dur m s rest (acc + dur c + s) := by
        simp [selectLoop, hlt]
      obtain ⟨ih1, _, ih3, ih4⟩ := ih (acc + dur c + s)
      refine ⟨?_, fun _ => by simp [heq], ?_, ?_⟩
      · rw [heq, List.length_cons, List.take_cons, Nat.add_sub_cancel, ← ih1]
        exact Nat.succ_pos _
      · intro j hj hjl
        cases j with
        | zero => omega
        | succ j' =>
          rw [spokenSum_succ_cons]
          cases Nat.eq_or_lt_of_le hj with
          | inl hone =>
            have hj0 : j' = 0 := by omega
            subst hj0
            rw [spokenSum_zero]
            push_cast
            ring_nf
            simpa using hlt
          | inr hgt =>
            have hj1 : 1 ≤ j' := by omega
            have hjl' : j' < (selectLoop dur m s rest (acc + dur c + s)).length := by
              rw [heq, List.length_cons] at hjl
              omega
            have := ih3 j' hj1 hjl'
            push_cast
            push_cast at this
            linarith
      · intro hl
        rw [heq, List.length_cons] at hl ⊢
        have hl' : (selectLoop dur m s rest (acc + dur c + s)).length <
            rest.length := by
          simpa using hl
        have := ih4 hl'
        rw [spokenSum_succ_cons]
        push_cast
        push_cast at this
        linarith
    · have heq : selectLoop dur m s (c :: rest) acc = [c] := by
        simp [selectLoop, hlt]
      refine ⟨by simp [heq], fun _ => by simp [heq], ?_, ?_⟩
      · intro j hj hjl
        rw [heq] at hjl
        simp at hjl
        omega
      · intro _
        rw [heq]
        simp only [List.length_singleton]
        rw [show ((1 : ℕ) : ℚ) - 1 = 0 by norm_num, mul_zero, add_zero]
        have : spokenSum dur (c :: rest) 1 = dur c := by
          simp [spokenSum]
        rw [this]
        exact not_lt.mp hlt

/-- C2: the selection loop accepts candidates strictly in order (the result
is a prefix), the running total compared against the target after accepting
`j` items is `(sum of the j durations) + silence * (j - 1)` — the silence gap
is charged only between clips, never after the last accepted one — the loop
stops exactly when that total reaches the target (all earlier totals are
below it), and at least one candidate is accepted whenever any exist.  In the
spec's scenario (durations 4 s and 7 s, target 10 s, silence 0.5 s) it
accepts both comments, with `4 + 0.5 < 10` and `4 + 0.5 + 7 ≥ 10`. -/
theorem C2_selection_loop (dur : RedditComment → ℚ) (m s : ℚ)
    (cs : List RedditComment) (h : cs ≠ []) :
    (selectLoop dur m s cs 0 ≠ [] ∧
     selectLoop dur m s cs 0 = cs.take (selectLoop dur m s cs 0).length ∧
     (∀ j : ℕ, 1 ≤ j → j < (selectLoop dur m s cs 0).length →
       spokenSum dur cs j + s * ((j : ℚ) - 1) < m) ∧
     ((selectLoop dur m s cs 0).length < cs.length →
       m ≤ spokenSum dur cs (selectLoop dur m s cs 0).length +
         s * (((selectLoop dur m s cs 0).length : ℚ) - 1))) ∧
    (selectLoop dur2 10 (1 / 2) [cA, cB] 0 = [cA, cB] ∧
     dur2 cA + 1 / 2 < 10 ∧ 10 ≤ dur2 cA + 1 / 2 + dur2 cB) := by
  obtain ⟨h1, h2, h3, h4⟩ := selectLoop_spec dur m s cs 0
  refine ⟨⟨h2 h, h1, ?_, ?_⟩, by decide, by decide, by decide⟩
  · intro j hj hjl
    have := h3 j hj hjl
    linarith
  · intro hl
    have := h4 hl
    linarith

/-- C2 witness: the spec scenario discharges the nonemptiness hypothesis and
the loop indeed accepts at least one comment. -/
theorem C2_selection_loop_witness :
    ([cA, cB] : List RedditComment) ≠ [] ∧ selectLoop dur2 10 (1 / 2) [cA, cB] 0 ≠ [] :=
  ⟨by decide, (C2_selection_loop dur2 10 (1 / 2) [cA, cB] (by decide)).1.1⟩

/-- C9: for every query, `k`, mode and alpha, searching a `VectorStore` on
which `add_documents` has never run fails with the raised error of the
`None`-index dereference (the spec's `NotIndexed` programming error) and
returns no results. -/
theorem C9_unindexed_search_fails (ext : Ext)
    (rr : Option (String → String → ℚ)) (q : String) (k : ℕ)
    (mode : SearchType) (alpha : ℚ) :
    ∃ attr, VectorStore.search ext rr VectorStore.init q k mode alpha =
      Except.error (PyErr.attributeError attr) := by
  cases mode <;> cases rr <;> exact ⟨_, rfl⟩

/-- C3: `Embeddings.encode` always fails with an `AttributeError` on `model`
(the lazy properties are local functions of `__init__`, never attached to the
instance), hence `VectorStore.add_documents` always fails, hence duplicate
filtering of any non-empty comment list never completes successfully. -/
theorem C3_encode_attribute_error :
    (∀ text, PyRuntime.Embeddings.encode text =
      Except.error (PyErr.attributeError "model")) ∧
    (∀ docs, PyRuntime.addDocumentsRun docs =
      Except.error (PyErr.attributeError "model")) ∧
    (∀ (comments rest : List RedditComment), comments ≠ [] →
      PyRuntime.filterDuplicateCommentsRun comments rest =
        Except.error (PyErr.attributeError "model")) := by
  refine ⟨fun _ => rfl, fun _ => rfl, fun comments rest h => ?_⟩
  cases comments with
  | nil => exact absurd rfl h
  | cons c cs => rfl

/-- C3 witness: the non-empty fixture list makes the runtime duplicate filter
fail with the `model` attribute error. -/
theorem C3_encode_attribute_error_witness :
    comments8 ≠ [] ∧
    PyRuntime.filterDuplicateCommentsRun comments8 [] =
      Except.error (PyErr.attributeError "model") :=
  ⟨by decide, C3_encode_attribute_error.2.2 comments8 [] (by decide)⟩

/-- C4 counterexample: in `hybrid_search` a document absent from the lexical
top-k does not contribute 0 as its normalized lexical side: document `a` is
returned with combined score `9/10 * 9/10 + 1/10 * ((0 - 1) / (3 - 1 + 1e-9))`,
which differs from the claimed `alpha * semantic + (1 - alpha) * 0 = 81/100`,
because the default raw score 0 is itself min-max normalized. -/
theorem C4_missing_lexical_counterexample :
    (("a", (152000000081 : ℚ) / 200000000100) ∈
      hybridList ext4 ["a", "b", "c"] "q" 2 (9 / 10)) ∧
    "a" ∉ (bm25Pairs ext4 ["a", "b", "c"] "q" 2).map (fun p => p.1) ∧
    dictGet? (semanticList ext4 ["a", "b", "c"] "q" 2) "a" =
      some (9 / 10) ∧
    (152000000081 : ℚ) / 200000000100 ≠ 9 / 10 * (9 / 10) + (1 - 9 / 10) * 0 := by
  refine ⟨?_, ?_, ?_, ?_⟩ <;> decide

/-- C6 counterexample: with `alpha = 1` the hybrid result is not the semantic
result: document `b` has negative cosine similarity, so the lexical-only
document `c` (combined score 0) displaces it from the top-2. -/
theorem C6_alpha_one_counterexample :
    hybridList ext6 ["a", "b", "c"] "q" 2 1 = [("a", 9 / 10), ("c", 0)] ∧
    semanticList ext6 ["a", "b", "c"] "q" 2 =
      [("a", 9 / 10), ("b", -(1 / 2))] ∧
    ([("a", (9 : ℚ) / 10), ("c", 0)] : List (String × ℚ)) ≠
      [("a", 9 / 10), ("b", -(1 / 2))] := by
  refine ⟨?_, ?_, ?_⟩ <;> decide

/-- C7 counterexample: searching a corpus of two byte-identical documents in
hybrid mode with `k = 2` returns a single result, not `min 2 2 = 2`, because
the two candidate dicts collapse duplicate texts. -/
theorem C7_exact_count_counterexample :
    VectorStore.search ext7 none (VectorStore.init.add_documents ["a", "a"])
      "q" 2 SearchType.hybrid (1 / 2) = Except.ok [("a", 1 / 4)] ∧
    ([("a", (1 : ℚ) / 4)] : List (String × ℚ)).length ≠
      min 2 (["a", "a"] : List String).length := by
  refine ⟨rfl, by decide⟩

/-- C8 counterexample: the duplicate filter is not a fixed point on its own
output.  With two byte-identical near-duplicate bodies, the first pass
suppresses only the first of them (suppression looks up the first position
matching the result text), keeping positions 0, 2, 3; on the second pass the
kept copy has become the first match and is suppressed, leaving 0, 3. -/
theorem C8_fixed_point_counterexample :
    filter_duplicate_comments ext8 comments8 (80 / 100) (1 / 2) =
      [mkC "0" b0 0, mkC "2" b1 0, mkC "3" b3 0] ∧
    filter_duplicate_comments ext8
      (filter_duplicate_comments ext8 comments8 (80 / 100) (1 / 2))
      (80 / 100) (1 / 2) = [mkC "0" b0 0, mkC "3" b3 0] ∧
    filter_duplicate_comments ext8
      (filter_duplicate_comments ext8 comments8 (80 / 100) (1 / 2))
      (80 / 100) (1 / 2) ≠
      filter_duplicate_comments ext8 comments8 (80 / 100) (1 / 2) := by
  refine ⟨?_, ?_, ?_⟩ <;> decide

/-- C10 counterexample: when all top-k lexical scores are equal (here 2), the
candidates inside the lexical top-k get normalized score 0, but the
semantic-only candidate `a` gets `(0 - 2) / (0 + 1e-9) = -2000000000` — not
the same value, and neither 0 nor 1 uniformly across candidates. -/
theorem C10_degenerate_normalization_counterexample :
    dictValues (bm25Pairs ext10 ["a", "b", "c"] "q" 2) = [2, 2] ∧
    "a" ∈ allDocs ext10 ["a", "b", "c"] "q" 2 ∧
    "b" ∈ allDocs ext10 ["a", "b", "c"] "q" 2 ∧
    normBm25 ext10 ["a", "b", "c"] "q" 2 "a" = -2000000000 ∧
    normBm25 ext10 ["a", "b", "c"] "q" 2 "b" = 0 ∧
    (-2000000000 : ℚ) ≠ 0 ∧ (-2000000000 : ℚ) ≠ 1 := by
  refine ⟨?_, ?_, ?_, ?_, ?_, ?_, ?_⟩ <;> decide

theorem semanticList_fst_mem {ext : Ext} {docs : List String} {q : String}
    {k : ℕ} {p : String × ℚ} (h : p ∈ semanticList ext docs q k) :
    p.1 ∈ docs := by
  rcases List.mem_map.mp h with ⟨i, hi, hpi⟩
  have hlt : i < docs.length := by
    have := argsortDesc_mem_lt (List.mem_of_mem_take hi)
    simpa [semScores] using this
  subst hpi
  simp only
  rw [List.getD_eq_getElem docs "" hlt]
  exact List.getElem_mem hlt

theorem pyLastSlice_subset {α : Type} {k : ℕ} {xs : List α} :
    ∀ x ∈ pyLastSlice k xs, x ∈ xs := by
  intro x hx
  unfold pyLastSlice at hx
  by_cases hk : k = 0
  · simpa [hk] using hx
  · rw [if_neg hk] at hx
    exact List.drop_subset _ xs hx

theorem bm25Pairs_fst_mem {ext : Ext} {docs : List String} {q : String}
    {k : ℕ} (hlen : (ext.bm25 docs q).length = docs.length) {p : String × ℚ}
    (h : p ∈ bm25Pairs ext docs q k) : p.1 ∈ docs := by
  rcases List.mem_map.mp h with ⟨i, hi, hpi⟩
  have hmem : i ∈ argsortAsc (ext.bm25 docs q) :=
    pyLastSlice_subset i (List.mem_reverse.mp hi)
  have hlt : i < docs.length := hlen ▸ argsortAsc_mem_lt hmem
  subst hpi
  simp only
  rw [List.getD_eq_getElem docs "" hlt]
  exact List.getElem_mem hlt

theorem allDocs_subset {ext : Ext} {docs : List String} {q : String} {k : ℕ}
    (hlen : (ext.bm25 docs q).length = docs.length) :
    ∀ d ∈ allDocs ext docs q k, d ∈ docs := by
  intro d hd
  rcases List.mem_append.mp (dedupFirst_mem.mp hd) with h1 | h1
  · rcases List.mem_map.mp h1 with ⟨p, hp, hpd⟩
    exact hpd ▸ semanticList_fst_mem hp
  · rcases List.mem_map.mp h1 with ⟨p, hp, hpd⟩
    exact hpd ▸ bm25Pairs_fst_mem hlen hp

theorem hybridList_mem_ex {ext : Ext} {docs : List String} {q : String}
    {k : ℕ} {alpha : ℚ} {p : String × ℚ}
    (h : p ∈ hybridList ext docs q k alpha) :
    p.1 ∈ allDocs ext docs q k ∧
      p.2 = combinedScore ext docs q k alpha p.1 := by
  have h1 : p ∈ pySortDesc (fun r : String × ℚ => r.2)
      ((allDocs ext docs q k).map
        (fun d => (d, combinedScore ext docs q k alpha d))) :=
    List.mem_of_mem_take h
  have h2 : p ∈ (allDocs ext docs q k).map
      (fun d => (d, combinedScore ext docs q k alpha d)) :=
    (pySortDesc_perm _ _).mem_iff.mp h1
  rcases List.mem_map.mp h2 with ⟨d, hd, hpd⟩
  subst hpd
  exact ⟨hd, rfl⟩

theorem hybridList_fst_mem {ext : Ext} {docs : List String} {q : String}
    {k : ℕ} {alpha : ℚ} {p : String × ℚ}
    (hlen : (ext.bm25 docs q).length = docs.length)
    (h : p ∈ hybridList ext docs q k alpha) : p.1 ∈ docs :=
  allDocs_subset hlen p.1 (hybridList_mem_ex h).1

/-- C4 amended: every result `(d, sc)` of `hybrid_search` has
`sc = alpha * semantic_side + (1 - alpha) * normalized_lexical_side`, where
the semantic side is the document's semantic top-k score (0 when absent), but
the lexical side is the min-max normalization of the document's raw lexical
score with default 0 — so a document absent from the lexical top-k
contributes `(0 - min) / (max - min + 1e-9)`, not 0, as its lexical side. -/
theorem C4_hybrid_score_formula (ext : Ext) (docs : List String) (q : String)
    (k : ℕ) (alpha : ℚ) (d : String) (sc : ℚ)
    (h : (d, sc) ∈ hybridList ext docs q k alpha) :
    sc = alpha * ((dictGet? (semanticList ext docs q k) d).getD 0) +
      (1 - alpha) *
        (((dictGet? (bm25Pairs ext docs q k) d).getD 0 -
            bm25Min ext docs q k) /
          (bm25Max ext docs q k - bm25Min ext docs q k + eps)) := by
  have h2 := (hybridList_mem_ex h).2
  simpa [combinedScore, vecGet, normBm25, bm25Get] using h2

/-- C4 witness: the formula instantiated on the fixture's document `b`. -/
theorem C4_hybrid_score_formula_witness :
    ((("b" : String), (18 : ℚ) / 25) ∈
      hybridList ext4 ["a", "b", "c"] "q" 2 (9 / 10)) ∧
    (18 : ℚ) / 25 =
      9 / 10 * ((dictGet? (semanticList ext4 ["a", "b", "c"] "q" 2) "b").getD 0) +
      (1 - 9 / 10) *
        (((dictGet? (bm25Pairs ext4 ["a", "b", "c"] "q" 2) "b").getD 0 -
            bm25Min ext4 ["a", "b", "c"] "q" 2) /
          (bm25Max ext4 ["a", "b", "c"] "q" 2 -
            bm25Min ext4 ["a", "b", "c"] "q" 2 + eps)) :=
  ⟨by decide, C4_hybrid_score_formula ext4 ["a", "b", "c"] "q" 2 (9 / 10) "b"
    (18 / 25) (by decide)⟩

/-- C10 amended: when all lexical top-k scores are equal, the normalization
denominator is the positive `1e-9` (no division by zero, no NaN) and every
candidate inside the lexical top-k gets normalized lexical score uniformly 0
(never 1); a candidate outside the lexical top-k instead gets
`(0 - min) / (max - min + 1e-9)`, which is nonzero whenever the common score
is nonzero. -/
theorem C10_uniform_zero_normalization (ext : Ext) (docs : List String)
    (q : String) (k : ℕ)
    (h : ∀ v ∈ dictValues (bm25Pairs ext docs q k), v = bm25Min ext docs q k) :
    0 < bm25Max ext docs q k - bm25Min ext docs q k + eps ∧
    (∀ d ∈ (bm25Pairs ext docs q k).map (fun r => r.1),
      normBm25 ext docs q k d = 0) ∧
    (∀ d, d ∉ (bm25Pairs ext docs q k).map (fun r => r.1) →
      normBm25 ext docs q k d =
        (0 - bm25Min ext docs q k) /
          (bm25Max ext docs q k - bm25Min ext docs q k + eps)) := by
  have hd0 : bm25Max ext docs q k - bm25Min ext docs q k + eps = eps := by
    by_cases hv : dictValues (bm25Pairs ext docs q k) = []
    · unfold bm25Max bm25Min
      rw [hv]
      norm_num [listMax, listMin]
    · have : bm25Max ext docs q k = bm25Min ext docs q k :=
        h _ (listMax_mem hv)
      rw [this]
      ring
  refine ⟨?_, ?_, ?_⟩
  · rw [hd0]
    unfold eps
    norm_num
  · intro d hd
    rcases dictGet?_mem_values hd with ⟨v, hv, hvmem⟩
    have hvmin : v = bm25Min ext docs q k := h v hvmem
    unfold normBm25 bm25Get
    rw [hv]
    simp [hvmin]
  · intro d hd
    unfold normBm25 bm25Get
    rw [dictGet?_eq_none hd]
    simp

/-- C10 witness: the amended statement instantiated on the fixture with all
lexical scores equal to 2. -/
theorem C10_uniform_zero_normalization_witness :
    (∀ v ∈ dictValues (bm25Pairs ext10 ["a", "b", "c"] "q" 2),
      v = bm25Min ext10 ["a", "b", "c"] "q" 2) ∧
    (∀ d ∈ (bm25Pairs ext10 ["a", "b", "c"] "q" 2).map (fun r => r.1),
      normBm25 ext10 ["a", "b", "c"] "q" 2 d = 0) :=
  ⟨by decide,
    (C10_uniform_zero_normalization ext10 ["a", "b", "c"] "q" 2 (by decide)).2.1⟩

/-- C5: one kept-comment iteration of the duplicate filter.  With
`body := comment_bodies[i]` and `results := hybrid_search(body, k=n)`:
(a) the comment at `i` is kept; (b) `seen` grows by `i` and by exactly
`comment_bodies.index(text)` for those results whose text differs from `body`
and whose score is ≥ threshold; (c) each such index is the first position
whose body equals the result text; (d) a position whose body is byte-identical
to `body` is never suppressed by this iteration; (e) of several positions
sharing identical text, only the first can be suppressed in this iteration. -/
theorem C5_suppression_semantics (ext : Ext) (alpha threshold : ℚ)
    (comments : List RedditComment) (st : List RedditComment × List ℕ)
    (i : ℕ) (hseen : i ∉ st.2) (hi : i < (bodiesOf comments).length)
    (hlen : (ext.bm25 (bodiesOf comments)
        ((bodiesOf comments).getD i "")).length =
      (bodiesOf comments).length) :
    (dupStep (dupSearch ext alpha) threshold comments (bodiesOf comments)
        st i).1 = st.1 ++ [comments.getD i default] ∧
    (∀ j, j ∈ (dupStep (dupSearch ext alpha) threshold comments
        (bodiesOf comments) st i).2 ↔
      j ∈ st.2 ∨ j = i ∨
      ∃ p ∈ dupSearch ext alpha (bodiesOf comments)
          ((bodiesOf comments).getD i ""),
        p.1 ≠ (bodiesOf comments).getD i "" ∧ threshold ≤ p.2 ∧
        j = listIndex (bodiesOf comments) p.1) ∧
    (∀ p ∈ dupSearch ext alpha (bodiesOf comments)
        ((bodiesOf comments).getD i ""),
      p.1 ≠ (bodiesOf comments).getD i "" → threshold ≤ p.2 →
      (bodiesOf comments).getD (listIndex (bodiesOf comments) p.1) "" = p.1 ∧
      ∀ j' < listIndex (bodiesOf comments) p.1,
        (bodiesOf comments).getD j' "" ≠ p.1) ∧
    (∀ j, (bodiesOf comments).getD j "" = (bodiesOf comments).getD i "" →
      j ∈ (dupStep (dupSearch ext alpha) threshold comments
        (bodiesOf comments) st i).2 → j ∈ st.2 ∨ j = i) ∧
    (∀ j1 j2, j1 < j2 →
      (bodiesOf comments).getD j1 "" = (bodiesOf comments).getD j2 "" →
      j2 ∈ (dupStep (dupSearch ext alpha) threshold comments
        (bodiesOf comments) st i).2 → j2 ∈ st.2 ∨ j2 = i) := by
  have hstep : dupStep (dupSearch ext alpha) threshold comments
      (bodiesOf comments) st i =
      (st.1 ++ [comments.getD i default],
        (st.2 ++ [i]) ++
          (dupSearch ext alpha (bodiesOf comments)
            ((bodiesOf comments).getD i "")).filterMap
            (fun r => if r.1 ≠ (bodiesOf comments).getD i "" ∧
                threshold ≤ r.2 then
              some (listIndex (bodiesOf comments) r.1) else none)) := by
    simp [dupStep, hseen]
  have hmemsupp : ∀ j, (j ∈ (dupSearch ext alpha (bodiesOf comments)
      ((bodiesOf comments).getD i "")).filterMap
      (fun r => if r.1 ≠ (bodiesOf comments).getD i "" ∧
          threshold ≤ r.2 then
        some (listIndex (bodiesOf comments) r.1) else none)) ↔
      ∃ p ∈ dupSearch ext alpha (bodiesOf comments)
          ((bodiesOf comments).getD i ""),
        p.1 ≠ (bodiesOf comments).getD i "" ∧ threshold ≤ p.2 ∧
        j = listIndex (bodiesOf comments) p.1 := by
    intro j
    rw [List.mem_filterMap]
    constructor
    · rintro ⟨p, hp, hpj⟩
      by_cases hc : p.1 ≠ (bodiesOf comments).getD i "" ∧ threshold ≤ p.2
      · rw [if_pos hc] at hpj
        exact ⟨p, hp, hc.1, hc.2, (Option.some_inj.mp hpj).symm⟩
      · rw [if_neg hc] at hpj
        exact absurd hpj (Option.noConfusion)
    · rintro ⟨p, hp, h1, h2, h3⟩
      exact ⟨p, hp, by rw [if_pos ⟨h1, h2⟩, h3]⟩
  have hfirst : ∀ p ∈ dupSearch ext alpha (bodiesOf comments)
      ((bodiesOf comments).getD i ""),
      (bodiesOf comments).getD (listIndex (bodiesOf comments) p.1) "" = p.1 ∧
      ∀ j' < listIndex (bodiesOf comments) p.1,
        (bodiesOf comments).getD j' "" ≠ p.1 := by
    intro p hp
    have hpmem : p.1 ∈ bodiesOf comments := hybridList_fst_mem hlen hp
    exact ⟨getD_listIndex hpmem, listIndex_first _ _⟩
  have hmem2 : ∀ j, j ∈ (dupStep (dupSearch ext alpha) threshold comments
      (bodiesOf comments) st i).2 ↔
      j ∈ st.2 ∨ j = i ∨
      ∃ p ∈ dupSearch ext alpha (bodiesOf comments)
          ((bodiesOf comments).getD i ""),
        p.1 ≠ (bodiesOf comments).getD i "" ∧ threshold ≤ p.2 ∧
        j = listIndex (bodiesOf comments) p.1 := by
    intro j
    rw [hstep]
    simp only [List.mem_append, List.mem_singleton, or_assoc, hmemsupp]
  refine ⟨by rw [hstep], hmem2, fun p hp _ _ => hfirst p hp, ?_, ?_⟩
  · intro j hbody hj
    rcases (hmem2 j).mp hj with h1 | h1 | ⟨p, hp, hne, _, hjeq⟩
    · exact Or.inl h1
    · exact Or.inr h1
    · exfalso
      have := (hfirst p hp).1
      rw [← hjeq] at this
      exact hne (by rw [← this, hbody])
  · intro j1 j2 hlt12 hbeq hj
    rcases (hmem2 j2).mp hj with h1 | h1 | ⟨p, hp, hne, _, hjeq⟩
    · exact Or.inl h1
    · exact Or.inr h1
    · exfalso
      have hval := (hfirst p hp).1
      have hfst := (hfirst p hp).2 j1 (hjeq ▸ hlt12)
      rw [← hjeq] at hval
      exact hfst (by rw [hbeq, hval])

/-- C5 witness: the first iteration on the near-duplicate fixture keeps
comment 0 and suppresses exactly position 1 (the first position holding the
near-duplicate text), not position 2 which holds the identical text. -/
theorem C5_suppression_semantics_witness :
    (0 ∉ (([], []) : List RedditComment × List ℕ).2 ∧
      0 < (bodiesOf comments8).length ∧
      (ext8.bm25 (bodiesOf comments8)
        ((bodiesOf comments8).getD 0 "")).length =
        (bodiesOf comments8).length) ∧
    (dupStep (dupSearch ext8 (1 / 2)) (80 / 100) comments8
        (bodiesOf comments8) ([], []) 0).1 =
      [] ++ [comments8.getD 0 default] :=
  ⟨⟨by decide, by decide, by decide⟩,
    (C5_suppression_semantics ext8 (1 / 2) (80 / 100) comments8 ([], []) 0
      (by decide) (by decide) (by decide)).1⟩

theorem semanticList_length (ext : Ext) (docs : List String) (q : String)
    (k : ℕ) : (semanticList ext docs q k).length = min k docs.length := by
  unfold semanticList
  rw [List.length_map, List.length_take, argsortDesc_length]
  simp [semScores]

theorem pyLastSlice_length {α : Type} (k : ℕ) (hk : k ≠ 0) (xs : List α) :
    (pyLastSlice k xs).length = min k xs.length := by
  unfold pyLastSlice
  rw [if_neg hk, List.length_drop]
  omega

theorem keywordList_length (ext : Ext) (docs : List String) (q : String)
    (k : ℕ) (hk : k ≠ 0) (hlen : (ext.bm25 docs q).length = docs.length) :
    (keywordList ext docs q k).length = min k docs.length := by
  unfold keywordList
  rw [List.length_map, List.length_reverse, pyLastSlice_length k hk,
    argsortAsc_length, hlen]

theorem rerankList_length (rr : String → String → ℚ) (q : String)
    (ds : List String) (k : ℕ) :
    (rerankList rr q ds k).length = min k ds.length := by
  unfold rerankList
  rw [List.length_take, pySortDesc_length, List.length_map]

theorem hybridList_length (ext : Ext) (docs : List String) (q : String)
    (k : ℕ) (alpha : ℚ) :
    (hybridList ext docs q k alpha).length =
      min k (allDocs ext docs q k).length := by
  unfold hybridList
  rw [List.length_take, pySortDesc_length, List.length_map]

theorem nodup_getD_inj {α : Type} {l : List α} (hnd : l.Nodup) (d : α)
    {i j : ℕ} (hi : i < l.length) (hj : j < l.length)
    (h : l.getD i d = l.getD j d) : i = j := by
  rw [List.getD_eq_getElem l d hi, List.getD_eq_getElem l d hj] at h
  have h2 : (⟨i, hi⟩ : Fin l.length) = ⟨j, hj⟩ :=
    (hnd.get_inj_iff).mp (by simpa using h)
  simpa using congrArg Fin.val h2

theorem semanticList_keys_nodup (ext : Ext) (docs : List String) (q : String)
    (k : ℕ) (hnd : docs.Nodup) :
    ((semanticList ext docs q k).map (fun p => p.1)).Nodup := by
  unfold semanticList
  rw [List.map_map]
  have hidx : ((argsortDesc (semScores ext docs q)).take k).Nodup :=
    (List.take_sublist _ _).nodup (argsortDesc_nodup _)
  refine List.Nodup.map_on ?_ hidx
  intro i hi j hj hEq
  have hib : i < docs.length := by
    have := argsortDesc_mem_lt (List.mem_of_mem_take hi)
    simpa [semScores] using this
  have hjb : j < docs.length := by
    have := argsortDesc_mem_lt (List.mem_of_mem_take hj)
    simpa [semScores] using this
  exact nodup_getD_inj hnd "" hib hjb (by simpa using hEq)

theorem semKeys_subset_allDocs (ext : Ext) (docs : List String) (q : String)
    (k : ℕ) :
    ∀ d ∈ (semanticList ext docs q k).map (fun p => p.1),
      d ∈ allDocs ext docs q k :=
  fun _ hd => dedupFirst_mem.mpr (List.mem_append.mpr (Or.inl hd))

theorem allDocs_length_ge (ext : Ext) (docs : List String) (q : String)
    (k : ℕ) (hnd : docs.Nodup) :
    min k docs.length ≤ (allDocs ext docs q k).length := by
  have h1 := ((semanticList_keys_nodup ext docs q k hnd).subperm
    (semKeys_subset_allDocs ext docs q k)).length_le
  rw [List.length_map, semanticList_length] at h1
  exact h1

theorem allDocs_length_le (ext : Ext) (docs : List String) (q : String)
    (k : ℕ) (hlen : (ext.bm25 docs q).length = docs.length) :
    (allDocs ext docs q k).length ≤ docs.length :=
  ((dedupFirst_nodup _).subperm (allDocs_subset hlen)).length_le

/-- C7 amended: searching an indexed corpus returns at most `k` results in
every mode, and exactly `min(k, corpus size)` results for `k ≥ 1` when the
indexed documents are pairwise distinct (byte-identical documents collapse
inside `hybrid_search`'s dicts, which is what the counterexample exhibits),
with or without the re-ranker. -/
theorem C7_topk_count (ext : Ext) (rr : Option (String → String → ℚ))
    (docs : List String) (q : String) (k : ℕ) (mode : SearchType)
    (alpha : ℚ) (hk : 1 ≤ k)
    (hlen : (ext.bm25 docs q).length = docs.length) :
    ∃ res, VectorStore.search ext rr (VectorStore.init.add_documents docs) q k
        mode alpha = Except.ok res ∧
      res.length ≤ k ∧ (docs.Nodup → res.length = min k docs.length) := by
  cases rr with
  | none =>
    cases mode with
    | hybrid =>
      refine ⟨(hybridList ext docs q k alpha).take k, rfl, ?_, ?_⟩
      · rw [List.length_take]
        exact Nat.min_le_left _ _
      · intro hnd
        rw [List.length_take, hybridList_length]
        have h1 := allDocs_length_ge ext docs q k hnd
        have h2 := allDocs_length_le ext docs q k hlen
        omega
    | semantic =>
      refine ⟨(semanticList ext docs q k).take k, rfl, ?_, ?_⟩
      · rw [List.length_take]
        exact Nat.min_le_left _ _
      · intro _
        rw [List.length_take, semanticList_length]
        omega
    | keyword =>
      refine ⟨(keywordList ext docs q k).take k, rfl, ?_, ?_⟩
      · rw [List.length_take]
        exact Nat.min_le_left _ _
      · intro _
        rw [List.length_take, keywordList_length ext docs q k (by omega) hlen]
        omega
  | some f =>
    cases mode with
    | hybrid =>
      refine ⟨(rerankList f q ((hybridList ext docs q (k * 100) alpha).map
        (fun p : String × ℚ => p.1)) k).take k, rfl, ?_, ?_⟩
      · rw [List.length_take]
        exact Nat.min_le_left _ _
      · intro hnd
        rw [List.length_take, rerankList_length, List.length_map,
          hybridList_length]
        have h1 := allDocs_length_ge ext docs q (k * 100) hnd
        have h2 := allDocs_length_le ext docs q (k * 100) hlen
        omega
    | semantic =>
      refine ⟨(rerankList f q ((semanticList ext docs q (k * 100)).map
        (fun p : String × ℚ => p.1)) k).take k, rfl, ?_, ?_⟩
      · rw [List.length_take]
        exact Nat.min_le_left _ _
      · intro _
        rw [List.length_take, rerankList_length, List.length_map,
          semanticList_length]
        omega
    | keyword =>
      refine ⟨(rerankList f q ((keywordList ext docs q (k * 100)).map
        (fun p : String × ℚ => p.1)) k).take k, rfl, ?_, ?_⟩
      · rw [List.length_take]
        exact Nat.min_le_left _ _
      · intro _
        rw [List.length_take, rerankList_length, List.length_map,
          keywordList_length ext docs q (k * 100) (by omega) hlen]
        omega

/-- C7 witness: the amended count on a two-document distinct corpus in hybrid
mode with `k = 1`. -/
theorem C7_topk_count_witness :
    ((1 : ℕ) ≤ 1 ∧
      (Ext.bm25 ext7 ["x", "y"] "q").length =
        (["x", "y"] : List String).length) ∧
    ∃ res, VectorStore.search ext7 none
        (VectorStore.init.add_documents ["x", "y"]) "q" 1 SearchType.hybrid
        (1 / 2) = Except.ok res ∧
      res.length ≤ 1 ∧
      ((["x", "y"] : List String).Nodup →
        res.length = min 1 (["x", "y"] : List String).length) :=
  ⟨⟨by decide, by decide⟩,
    C7_topk_count ext7 none ["x", "y"] "q" 1 SearchType.hybrid (1 / 2)
      (by decide) (by decide)⟩

theorem combinedScore_one (ext : Ext) (docs : List String) (q : String)
    (k : ℕ) (d : String) :
    combinedScore ext docs q k 1 d = vecGet ext docs q k d := by
  unfold combinedScore
  ring

theorem combinedScore_zero (ext : Ext) (docs : List String) (q : String)
    (k : ℕ) (d : String) :
    combinedScore ext docs q k 0 d = normBm25 ext docs q k d := by
  unfold combinedScore
  ring

theorem semScores_getD {ext : Ext} {docs : List String} {q : String} {i : ℕ}
    (hi : i < docs.length) :
    (semScores ext docs q).getD i 0 = ext.sem q (docs.getD i "") := by
  have hi' : i < (semScores ext docs q).length := by simpa [semScores] using hi
  rw [List.getD_eq_getElem _ 0 hi', List.getD_eq_getElem docs "" hi]
  simp [semScores]

theorem semanticList_snd_pos {ext : Ext} {docs : List String} {q : String}
    {k : ℕ} (hpos : ∀ d ∈ docs, 0 < ext.sem q d) :
    ∀ p ∈ semanticList ext docs q k, 0 < p.2 := by
  intro p hp
  rcases List.mem_map.mp hp with ⟨i, hi, hpi⟩
  have hib : i < docs.length := by
    have := argsortDesc_mem_lt (List.mem_of_mem_take hi)
    simpa [semScores] using this
  subst hpi
  simp only
  rw [semScores_getD hib]
  refine hpos _ ?_
  rw [List.getD_eq_getElem docs "" hib]
  exact List.getElem_mem hib

theorem semanticList_strict {ext : Ext} {docs : List String} {q : String}
    {k : ℕ} (hsn : (semScores ext docs q).Nodup) :
    (semanticList ext docs q k).Pairwise (fun a b => b.2 < a.2) := by
  unfold semanticList
  rw [List.pairwise_map]
  have hsorted : ((argsortDesc (semScores ext docs q)).take k).Pairwise
      (fun i j => (semScores ext docs q).getD j 0 ≤
        (semScores ext docs q).getD i 0) :=
    List.Pairwise.sublist (List.take_sublist _ _) (argsortDesc_sorted _)
  have hnd : ((argsortDesc (semScores ext docs q)).take k).Pairwise
      (fun i j : ℕ => i ≠ j) :=
    (List.take_sublist _ _).nodup (argsortDesc_nodup _)
  have hcomb := hsorted.and hnd
  refine hcomb.imp_of_mem ?_
  intro i j hi hj hr
  have hib : i < (semScores ext docs q).length :=
    argsortDesc_mem_lt (List.mem_of_mem_take hi)
  have hjb : j < (semScores ext docs q).length :=
    argsortDesc_mem_lt (List.mem_of_mem_take hj)
  simp only
  rcases lt_or_eq_of_le hr.1 with hlt | heq
  · exact hlt
  · exact absurd (nodup_getD_inj hsn 0 hjb hib heq) (Ne.symm hr.2)

theorem semKeys_all {ext : Ext} {docs : List String} {q : String} {k : ℕ}
    (hkn : docs.length ≤ k) :
    ∀ d ∈ docs, d ∈ (semanticList ext docs q k).map (fun p => p.1) := by
  intro d hd
  rcases List.mem_iff_getElem.mp hd with ⟨i, hi, hdi⟩
  have hilen : i < (semScores ext docs q).length := by simpa [semScores]
  have himem : i ∈ argsortDesc (semScores ext docs q) :=
    (argsortDesc_perm _).mem_iff.mpr (List.mem_range.mpr hilen)
  have htake : (argsortDesc (semScores ext docs q)).take k =
      argsortDesc (semScores ext docs q) := by
    apply List.take_of_length_le
    rw [argsortDesc_length]
    simpa [semScores] using hkn
  refine List.mem_map.mpr ?_
  refine ⟨(docs.getD i "", (semScores ext docs q).getD i 0), ?_, ?_⟩
  · unfold semanticList
    rw [htake]
    exact List.mem_map.mpr ⟨i, himem, rfl⟩
  · simp only
    rw [List.getD_eq_getElem docs "" hi, hdi]

theorem bm25Pairs_keys_nodup (ext : Ext) (docs : List String) (q : String)
    (k : ℕ) (hnd : docs.Nodup)
    (hlen : (ext.bm25 docs q).length = docs.length) :
    ((bm25Pairs ext docs q k).map (fun p => p.1)).Nodup := by
  unfold bm25Pairs
  rw [List.map_map]
  have hsub : (pyLastSlice k (argsortAsc (ext.bm25 docs q))).Sublist
      (argsortAsc (ext.bm25 docs q)) := by
    unfold pyLastSlice
    by_cases hk : k = 0
    · rw [if_pos hk]
    · rw [if_neg hk]
      exact List.drop_sublist _ _
  have hidx : ((pyLastSlice k (argsortAsc (ext.bm25 docs q))).reverse).Nodup := by
    rw [List.nodup_reverse]
    exact hsub.nodup (argsortAsc_nodup _)
  refine List.Nodup.map_on ?_ hidx
  intro i hi j hj hEq
  have hib : i < docs.length := by
    have := argsortAsc_mem_lt (pyLastSlice_subset i (List.mem_reverse.mp hi))
    omega
  have hjb : j < docs.length := by
    have := argsortAsc_mem_lt (pyLastSlice_subset j (List.mem_reverse.mp hj))
    omega
  exact nodup_getD_inj hnd "" hib hjb (by simpa using hEq)

theorem bm25Pairs_snd_mem {ext : Ext} {docs : List String} {q : String}
    {k : ℕ} {p : String × ℚ} (h : p ∈ bm25Pairs ext docs q k) :
    p.2 ∈ ext.bm25 docs q := by
  rcases List.mem_map.mp h with ⟨i, hi, hpi⟩
  have hib : i < (ext.bm25 docs q).length :=
    argsortAsc_mem_lt (pyLastSlice_subset i (List.mem_reverse.mp hi))
  subst hpi
  simp only
  rw [List.getD_eq_getElem _ 0 hib]
  exact List.getElem_mem hib

theorem bm25Pairs_snd_strict {ext : Ext} {docs : List String} {q : String}
    {k : ℕ} (hbn : (ext.bm25 docs q).Nodup) :
    (bm25Pairs ext docs q k).Pairwise (fun a b => b.2 < a.2) := by
  unfold bm25Pairs
  rw [List.pairwise_map]
  have hsub : (pyLastSlice k (argsortAsc (ext.bm25 docs q))).Sublist
      (argsortAsc (ext.bm25 docs q)) := by
    unfold pyLastSlice
    by_cases hk : k = 0
    · rw [if_pos hk]
    · rw [if_neg hk]
      exact List.drop_sublist _ _
  have hslice : (pyLastSlice k (argsortAsc (ext.bm25 docs q))).Pairwise
      (fun i j => (ext.bm25 docs q).getD i 0 ≤ (ext.bm25 docs q).getD j 0) :=
    List.Pairwise.sublist hsub (argsortAsc_sorted _)
  have hsorted : ((pyLastSlice k (argsortAsc (ext.bm25 docs q))).reverse).Pairwise
      (fun i j => (ext.bm25 docs q).getD j 0 ≤ (ext.bm25 docs q).getD i 0) :=
    List.pairwise_reverse.mpr hslice
  have hnd : ((pyLastSlice k (argsortAsc (ext.bm25 docs q))).reverse).Pairwise
      (fun i j : ℕ => i ≠ j) :=
    List.nodup_reverse.mpr (hsub.nodup (argsortAsc_nodup _))
  have hcomb := hsorted.and hnd
  refine hcomb.imp_of_mem ?_
  intro i j hi hj hr
  have hib : i < (ext.bm25 docs q).length :=
    argsortAsc_mem_lt (pyLastSlice_subset i (List.mem_reverse.mp hi))
  have hjb : j < (ext.bm25 docs q).length :=
    argsortAsc_mem_lt (pyLastSlice_subset j (List.mem_reverse.mp hj))
  simp only
  rcases lt_or_eq_of_le hr.1 with hlt | heq
  · exact hlt
  · exact absurd (nodup_getD_inj hbn 0 hjb hib heq) (Ne.symm hr.2)

theorem bmKeys_all {ext : Ext} {docs : List String} {q : String} {k : ℕ}
    (hkn : docs.length ≤ k) (hk0 : k ≠ 0)
    (hlen : (ext.bm25 docs q).length = docs.length) :
    ∀ d ∈ docs, d ∈ (bm25Pairs ext docs q k).map (fun p => p.1) := by
  intro d hd
  rcases List.mem_iff_getElem.mp hd with ⟨i, hi, hdi⟩
  have hilen : i < (ext.bm25 docs q).length := by omega
  have himem : i ∈ argsortAsc (ext.bm25 docs q) :=
    (argsortAsc_perm _).mem_iff.mpr (List.mem_range.mpr hilen)
  have hslice : pyLastSlice k (argsortAsc (ext.bm25 docs q)) =
      argsortAsc (ext.bm25 docs q) := by
    unfold pyLastSlice
    rw [if_neg hk0]
    have : (argsortAsc (ext.bm25 docs q)).length - k = 0 := by
      rw [argsortAsc_length]
      omega
    rw [this, List.drop_zero]
  refine List.mem_map.mpr ?_
  refine ⟨(docs.getD i "", (ext.bm25 docs q).getD i 0), ?_, ?_⟩
  · unfold bm25Pairs
    rw [hslice]
    exact List.mem_map.mpr ⟨i, List.mem_reverse.mpr himem, rfl⟩
  · simp only
    rw [List.getD_eq_getElem docs "" hi, hdi]

theorem dictValues_of_nodup {l : List (String × ℚ)}
    (h : (l.map (fun r => r.1)).Nodup) :
    dictValues l = l.map (fun p => p.2) := by
  unfold dictValues
  rw [dedupFirst_eq_self h]
  have := congrArg (List.map (fun p : String × ℚ => p.2)) (dict_reconstruct h)
  simpa [List.map_map] using this

theorem keywordList_eq_bm25Pairs (ext : Ext) (docs : List String)
    (q : String) (k : ℕ) :
    keywordList ext docs q k = bm25Pairs ext docs q k := rfl

/-- C6 amended: with distinct documents, `k ≥ 1` and a nonempty corpus, (i)
for `alpha = 1` the hybrid result equals the semantic result — same list,
same order — provided every semantic score is positive (a negative cosine is
displaced by a lexical-only candidate whose missing semantic side defaults to
0, as the counterexample shows) and the semantic scores are pairwise distinct
(ties fall to Python's unspecified set order); (ii) for `alpha = 0` the hybrid
document ranking equals the keyword ranking provided the BM25 scores are
positive and pairwise distinct — in particular a lexically top document
absent from the semantic top-k still surfaces. -/
theorem C6_alpha_extremes (ext : Ext) (docs : List String) (q : String)
    (k : ℕ) (hnd : docs.Nodup) (hk : 1 ≤ k) (hne : docs ≠ [])
    (hlen : (ext.bm25 docs q).length = docs.length) :
    ((∀ d ∈ docs, 0 < ext.sem q d) →
     (∀ d1 ∈ docs, ∀ d2 ∈ docs, d1 ≠ d2 → ext.sem q d1 ≠ ext.sem q d2) →
     hybridList ext docs q k 1 = semanticList ext docs q k) ∧
    ((∀ x ∈ ext.bm25 docs q, 0 < x) → (ext.bm25 docs q).Nodup →
     (hybridList ext docs q k 0).map (fun p => p.1) =
       (keywordList ext docs q k).map (fun p => p.1)) := by
  constructor
  · intro hpos hinj
    have hsn : (semScores ext docs q).Nodup := by
      refine List.Nodup.map_on ?_ hnd
      intro x hx y hy hxy
      by_contra hne'
      exact hinj x hx y hy hne' hxy
    have hsknd : ((semanticList ext docs q k).map (fun p => p.1)).Nodup :=
      semanticList_keys_nodup ext docs q k hnd
    have hA : allDocs ext docs q k =
        (semanticList ext docs q k).map (fun p => p.1) ++
        (dedupFirst ((bm25Pairs ext docs q k).map (fun p => p.1))).filter
          (fun y => decide
            (y ∉ (semanticList ext docs q k).map (fun p => p.1))) := by
      unfold allDocs
      exact dedupFirst_append_left hsknd
    have hmap : (allDocs ext docs q k).map
        (fun d => (d, combinedScore ext docs q k 1 d)) =
        semanticList ext docs q k ++
        ((dedupFirst ((bm25Pairs ext docs q k).map (fun p => p.1))).filter
          (fun y => decide
            (y ∉ (semanticList ext docs q k).map (fun p => p.1)))).map
          (fun d => (d, (0 : ℚ))) := by
      rw [hA, List.map_append]
      congr 1
      · have h1 : ((semanticList ext docs q k).map (fun p => p.1)).map
            (fun d => (d, combinedScore ext docs q k 1 d)) =
            ((semanticList ext docs q k).map (fun p => p.1)).map
              (fun d => (d, (dictGet? (semanticList ext docs q k) d).getD 0)) := by
          apply List.map_congr_left
          intro d _
          rw [combinedScore_one]
          rfl
        rw [h1, dict_reconstruct hsknd]
      · apply List.map_congr_left
        intro d hd
        have hdns : d ∉ (semanticList ext docs q k).map (fun p => p.1) := by
          have := (List.mem_filter.mp hd).2
          simpa using this
        rw [combinedScore_one]
        have hz : vecGet ext docs q k d = 0 := by
          unfold vecGet
          rw [dictGet?_eq_none hdns]
          rfl
        rw [hz]
    have hperm : (pySortDesc (fun p : String × ℚ => p.2)
        ((allDocs ext docs q k).map
          (fun d => (d, combinedScore ext docs q k 1 d)))).Perm
        (semanticList ext docs q k ++
          ((dedupFirst ((bm25Pairs ext docs q k).map (fun p => p.1))).filter
            (fun y => decide
              (y ∉ (semanticList ext docs q k).map (fun p => p.1)))).map
            (fun d => (d, (0 : ℚ)))) :=
      hmap ▸ pySortDesc_perm _ _
    have hsorted := pySortDesc_pairwise (fun p : String × ℚ => p.2)
      ((allDocs ext docs q k).map
        (fun d => (d, combinedScore ext docs q k 1 d)))
    have hstrict : (semanticList ext docs q k).Pairwise
        (fun a b => b.2 < a.2) := semanticList_strict hsn
    have hBT : ∀ b ∈ semanticList ext docs q k,
        ∀ t ∈ ((dedupFirst ((bm25Pairs ext docs q k).map
          (fun p => p.1))).filter
          (fun y => decide
            (y ∉ (semanticList ext docs q k).map (fun p => p.1)))).map
          (fun d => (d, (0 : ℚ))), t.2 < b.2 := by
      intro b hb t ht
      rcases List.mem_map.mp ht with ⟨d, _, htd⟩
      have ht2 : t.2 = 0 := by rw [← htd]
      rw [ht2]
      exact semanticList_snd_pos hpos b hb
    have htake := take_sorted_eq hperm hsorted hstrict hBT
    unfold hybridList
    by_cases hkn : k ≤ docs.length
    · have hlength : (semanticList ext docs q k).length = k := by
        rw [semanticList_length]
        omega
      rw [hlength] at htake
      exact htake
    · push_neg at hkn
      have hrestnil : (dedupFirst ((bm25Pairs ext docs q k).map
          (fun p => p.1))).filter
          (fun y => decide
            (y ∉ (semanticList ext docs q k).map (fun p => p.1))) = [] := by
        rw [List.filter_eq_nil_iff]
        intro a ha
        have hamem : a ∈ (bm25Pairs ext docs q k).map (fun p => p.1) :=
          dedupFirst_mem.mp ha
        have hadocs : a ∈ docs := by
          rcases List.mem_map.mp hamem with ⟨p, hp, hpa⟩
          exact hpa ▸ bm25Pairs_fst_mem hlen hp
        have hsk : a ∈ (semanticList ext docs q k).map (fun p => p.1) :=
          semKeys_all (by omega) a hadocs
        simp [hsk]
      have hmap' : (allDocs ext docs q k).map
          (fun d => (d, combinedScore ext docs q k 1 d)) =
          semanticList ext docs q k := by
        rw [hmap, hrestnil]
        simp
      have hlenP : (pySortDesc (fun p : String × ℚ => p.2)
          ((allDocs ext docs q k).map
            (fun d => (d, combinedScore ext docs q k 1 d)))).length =
          (semanticList ext docs q k).length := by
        rw [pySortDesc_length, hmap']
      have hPeq : pySortDesc (fun p : String × ℚ => p.2)
          ((allDocs ext docs q k).map
            (fun d => (d, combinedScore ext docs q k 1 d))) =
          semanticList ext docs q k := by
        rw [← hlenP] at htake
        rw [List.take_length] at htake
        exact htake
      rw [hPeq]
      apply List.take_of_length_le
      rw [semanticList_length]
      omega
  · intro hbpos hbn
    have hk0 : k ≠ 0 := by omega
    have hbknd : ((bm25Pairs ext docs q k).map (fun p => p.1)).Nodup :=
      bm25Pairs_keys_nodup ext docs q k hnd hlen
    have hbmplen : (bm25Pairs ext docs q k).length = min k docs.length := by
      rw [← keywordList_eq_bm25Pairs, keywordList_length ext docs q k hk0 hlen]
    have hbmpne : bm25Pairs ext docs q k ≠ [] := by
      intro hcon
      have hcl : (bm25Pairs ext docs q k).length = 0 := by rw [hcon]; rfl
      rw [hbmplen] at hcl
      have : docs.length ≠ 0 := fun hz => hne (List.eq_nil_of_length_eq_zero hz)
      omega
    have hvals : dictValues (bm25Pairs ext docs q k) =
        (bm25Pairs ext docs q k).map (fun p => p.2) := dictValues_of_nodup hbknd
    have hvne : dictValues (bm25Pairs ext docs q k) ≠ [] := by
      rw [hvals]
      simpa using hbmpne
    have heps : (0 : ℚ) < eps := by
      unfold eps
      norm_num
    have hDpos : 0 < bm25Max ext docs q k - bm25Min ext docs q k + eps := by
      have hmaxmem := listMax_mem hvne
      have hminle : bm25Min ext docs q k ≤
          listMax (dictValues (bm25Pairs ext docs q k)) :=
        listMin_le _ hmaxmem
      have : bm25Min ext docs q k ≤ bm25Max ext docs q k := hminle
      linarith
    have hnormkey : ∀ p ∈ bm25Pairs ext docs q k,
        normBm25 ext docs q k p.1 =
          (p.2 - bm25Min ext docs q k) /
            (bm25Max ext docs q k - bm25Min ext docs q k + eps) := by
      intro p hp
      unfold normBm25 bm25Get
      rw [dictGet?_of_mem_nodup hbknd hp]
      rfl
    have hnormnon : ∀ d, d ∉ (bm25Pairs ext docs q k).map (fun p => p.1) →
        normBm25 ext docs q k d =
          (0 - bm25Min ext docs q k) /
            (bm25Max ext docs q k - bm25Min ext docs q k + eps) := by
      intro d hd
      unfold normBm25 bm25Get
      rw [dictGet?_eq_none hd]
      rfl
    have hsknd := semanticList_keys_nodup ext docs q k hnd
    have hRHSnd : ((bm25Pairs ext docs q k).map (fun p => p.1) ++
        ((semanticList ext docs q k).map (fun p => p.1)).filter
          (fun y => decide
            (y ∉ (bm25Pairs ext docs q k).map (fun p => p.1)))).Nodup := by
      refine List.Nodup.append hbknd (hsknd.filter _) ?_
      intro a ha1 ha2
      have h2 := (List.mem_filter.mp ha2).2
      simp only [decide_eq_true_eq] at h2
      exact h2 ha1
    have hpermKeys : (allDocs ext docs q k).Perm
        ((bm25Pairs ext docs q k).map (fun p => p.1) ++
          ((semanticList ext docs q k).map (fun p => p.1)).filter
            (fun y => decide
              (y ∉ (bm25Pairs ext docs q k).map (fun p => p.1)))) := by
      apply List.Subperm.antisymm
      · apply List.Nodup.subperm (dedupFirst_nodup _)
        intro a ha
        rcases List.mem_append.mp (dedupFirst_mem.mp ha) with h1 | h1
        · by_cases hab : a ∈ (bm25Pairs ext docs q k).map (fun p => p.1)
          · exact List.mem_append.mpr (Or.inl hab)
          · refine List.mem_append.mpr (Or.inr ?_)
            exact List.mem_filter.mpr ⟨h1, by simpa using hab⟩
        · exact List.mem_append.mpr (Or.inl h1)
      · apply List.Nodup.subperm hRHSnd
        intro a ha
        rcases List.mem_append.mp ha with h1 | h1
        · exact dedupFirst_mem.mpr (List.mem_append.mpr (Or.inr h1))
        · exact dedupFirst_mem.mpr
            (List.mem_append.mpr (Or.inl (List.mem_filter.mp h1).1))
    have hmapB : ((bm25Pairs ext docs q k).map (fun p => p.1)).map
        (fun d => (d, combinedScore ext docs q k 0 d)) =
        (bm25Pairs ext docs q k).map
          (fun p => (p.1, (p.2 - bm25Min ext docs q k) /
            (bm25Max ext docs q k - bm25Min ext docs q k + eps))) := by
      rw [List.map_map]
      apply List.map_congr_left
      intro p hp
      show (p.1, combinedScore ext docs q k 0 p.1) = _
      rw [combinedScore_zero, hnormkey p hp]
    have hmapT : ∀ t ∈ (((semanticList ext docs q k).map (fun p => p.1)).filter
        (fun y => decide
          (y ∉ (bm25Pairs ext docs q k).map (fun p => p.1)))).map
        (fun d => (d, combinedScore ext docs q k 0 d)),
        t.2 = (0 - bm25Min ext docs q k) /
          (bm25Max ext docs q k - bm25Min ext docs q k + eps) := by
      intro t ht
      rcases List.mem_map.mp ht with ⟨d, hd, htd⟩
      have hdnb : d ∉ (bm25Pairs ext docs q k).map (fun p => p.1) := by
        have := (List.mem_filter.mp hd).2
        simpa using this
      rw [← htd]
      show combinedScore ext docs q k 0 d = _
      rw [combinedScore_zero, hnormnon d hdnb]
    have hperm2 : (pySortDesc (fun p : String × ℚ => p.2)
        ((allDocs ext docs q k).map
          (fun d => (d, combinedScore ext docs q k 0 d)))).Perm
        ((bm25Pairs ext docs q k).map
          (fun p => (p.1, (p.2 - bm25Min ext docs q k) /
            (bm25Max ext docs q k - bm25Min ext docs q k + eps))) ++
          (((semanticList ext docs q k).map (fun p => p.1)).filter
            (fun y => decide
              (y ∉ (bm25Pairs ext docs q k).map (fun p => p.1)))).map
            (fun d => (d, combinedScore ext docs q k 0 d))) := by
      refine (pySortDesc_perm _ _).trans ?_
      have hp := hpermKeys.map (fun d => (d, combinedScore ext docs q k 0 d))
      rw [List.map_append, hmapB] at hp
      exact hp
    have hBstrict : ((bm25Pairs ext docs q k).map
        (fun p => (p.1, (p.2 - bm25Min ext docs q k) /
          (bm25Max ext docs q k - bm25Min ext docs q k + eps)))).Pairwise
        (fun a b => b.2 < a.2) := by
      rw [List.pairwise_map]
      refine (bm25Pairs_snd_strict hbn).imp ?_
      intro a b hab
      simp only
      rw [div_lt_div_iff_of_pos_right hDpos]
      linarith
    have hBT2 : ∀ b ∈ (bm25Pairs ext docs q k).map
        (fun p => (p.1, (p.2 - bm25Min ext docs q k) /
          (bm25Max ext docs q k - bm25Min ext docs q k + eps))),
        ∀ t ∈ (((semanticList ext docs q k).map (fun p => p.1)).filter
          (fun y => decide
            (y ∉ (bm25Pairs ext docs q k).map (fun p => p.1)))).map
          (fun d => (d, combinedScore ext docs q k 0 d)), t.2 < b.2 := by
      intro b hb t ht
      rw [hmapT t ht]
      rcases List.mem_map.mp hb with ⟨p, hp, hpb⟩
      have hp2 : 0 < p.2 := hbpos _ (bm25Pairs_snd_mem hp)
      rw [← hpb]
      show (0 - bm25Min ext docs q k) / _ < _
      simp only
      rw [div_lt_div_iff_of_pos_right hDpos]
      linarith
    have htake2 := take_sorted_eq hperm2 (pySortDesc_pairwise _ _)
      hBstrict hBT2
    have hBlen : ((bm25Pairs ext docs q k).map
        (fun p => (p.1, (p.2 - bm25Min ext docs q k) /
          (bm25Max ext docs q k - bm25Min ext docs q k + eps)))).length =
        min k docs.length := by
      rw [List.length_map, hbmplen]
    have hBfst : ((bm25Pairs ext docs q k).map
        (fun p => (p.1, (p.2 - bm25Min ext docs q k) /
          (bm25Max ext docs q k - bm25Min ext docs q k + eps)))).map
        (fun p => p.1) = (keywordList ext docs q k).map (fun p => p.1) := by
      rw [keywordList_eq_bm25Pairs, List.map_map]
      rfl
    unfold hybridList
    by_cases hkn : k ≤ docs.length
    · have hBk : ((bm25Pairs ext docs q k).map
          (fun p => (p.1, (p.2 - bm25Min ext docs q k) /
            (bm25Max ext docs q k - bm25Min ext docs q k + eps)))).length = k := by
        rw [hBlen]
        omega
      rw [hBk] at htake2
      rw [htake2, hBfst]
    · push_neg at hkn
      have hsknil : ((semanticList ext docs q k).map (fun p => p.1)).filter
          (fun y => decide
            (y ∉ (bm25Pairs ext docs q k).map (fun p => p.1))) = [] := by
        rw [List.filter_eq_nil_iff]
        intro a ha
        have hadocs : a ∈ docs := by
          rcases List.mem_map.mp ha with ⟨p, hp, hpa⟩
          exact hpa ▸ semanticList_fst_mem hp
        have hbk : a ∈ (bm25Pairs ext docs q k).map (fun p => p.1) :=
          bmKeys_all (by omega) hk0 hlen a hadocs
        simp [hbk]
      rw [hsknil] at hperm2
      simp only [List.map_nil, List.append_nil] at hperm2
      have hPlen := hperm2.length_eq
      have hPeq : pySortDesc (fun p : String × ℚ => p.2)
          ((allDocs ext docs q k).map
            (fun d => (d, combinedScore ext docs q k 0 d))) =
          (bm25Pairs ext docs q k).map
            (fun p => (p.1, (p.2 - bm25Min ext docs q k) /
              (bm25Max ext docs q k - bm25Min ext docs q k + eps))) := by
        rw [← hPlen, List.take_length] at htake2
        exact htake2
      have htk : (pySortDesc (fun p : String × ℚ => p.2)
          ((allDocs ext docs q k).map
            (fun d => (d, combinedScore ext docs q k 0 d)))).take k =
          (bm25Pairs ext docs q k).map
            (fun p => (p.1, (p.2 - bm25Min ext docs q k) /
              (bm25Max ext docs q k - bm25Min ext docs q k + eps))) := by
        rw [hPeq]
        apply List.take_of_length_le
        rw [hBlen]
        omega
      rw [htk, hBfst]

/-- C6 witness: on the three-document fixture with pairwise-distinct positive
scores on both sides, every hypothesis and both provisos of the amended claim
hold, and the two conclusions follow: the `alpha = 1` hybrid result equals the
semantic result and the `alpha = 0` hybrid ranking equals the keyword
ranking. -/
theorem C6_alpha_extremes_witness :
    ((["x", "y", "z"] : List String).Nodup ∧ (1 : ℕ) ≤ 2 ∧
      (["x", "y", "z"] : List String) ≠ [] ∧
      (Ext.bm25 extGood ["x", "y", "z"] "q").length =
        (["x", "y", "z"] : List String).length ∧
      (∀ d ∈ (["x", "y", "z"] : List String), 0 < Ext.sem extGood "q" d) ∧
      (∀ d1 ∈ (["x", "y", "z"] : List String),
        ∀ d2 ∈ (["x", "y", "z"] : List String), d1 ≠ d2 →
          Ext.sem extGood "q" d1 ≠ Ext.sem extGood "q" d2) ∧
      (∀ x ∈ Ext.bm25 extGood ["x", "y", "z"] "q", 0 < x) ∧
      (Ext.bm25 extGood ["x", "y", "z"] "q").Nodup) ∧
    hybridList extGood ["x", "y", "z"] "q" 2 1 =
      semanticList extGood ["x", "y", "z"] "q" 2 ∧
    (hybridList extGood ["x", "y", "z"] "q" 2 0).map (fun p => p.1) =
      (keywordList extGood ["x", "y", "z"] "q" 2).map (fun p => p.1) :=
  ⟨⟨by decide, by decide, by decide, by decide, by decide, by decide,
      by decide, by decide⟩,
    (C6_alpha_extremes extGood ["x", "y", "z"] "q" 2 (by decide) (by decide)
      (by decide) (by decide)).1 (by decide) (by decide),
    (C6_alpha_extremes extGood ["x", "y", "z"] "q" 2 (by decide) (by decide)
      (by decide) (by decide)).2 (by decide) (by decide)⟩

theorem keptList_lt (Q : ℕ → ℕ → Bool) : ∀ m, ∀ i ∈ keptList Q m, i < m := by
  intro m
  induction m with
  | zero => simp [keptList]
  | succ n ih =>
    intro i hi
    simp only [keptList] at hi
    by_cases hc : (keptList Q n).all (fun a => ! Q a n)
    · rw [if_pos hc] at hi
      rcases List.mem_append.mp hi with h1 | h1
      · exact lt_trans (ih i h1) (Nat.lt_succ_self n)
      · rw [List.mem_singleton.mp h1]
        exact Nat.lt_succ_self n
    · rw [if_neg hc] at hi
      exact lt_trans (ih i hi) (Nat.lt_succ_self n)

theorem keptList_sorted (Q : ℕ → ℕ → Bool) :
    ∀ m, (keptList Q m).Pairwise (fun a b => a < b) := by
  intro m
  induction m with
  | zero => simp [keptList]
  | succ n ih =>
    simp only [keptList]
    by_cases hc : (keptList Q n).all (fun a => ! Q a n)
    · rw [if_pos hc]
      refine List.pairwise_append.mpr ⟨ih, by simp, ?_⟩
      intro a ha b hb
      rw [List.mem_singleton.mp hb]
      exact keptList_lt Q n a ha
    · rw [if_neg hc]
      exact ih

theorem keptList_nodup (Q : ℕ → ℕ → Bool) (m : ℕ) :
    (keptList Q m).Nodup :=
  (keptList_sorted Q m).imp (fun h => Nat.ne_of_lt h)

theorem keptList_mono_mem (Q : ℕ → ℕ → Bool) :
    ∀ {m' m a : ℕ}, m ≤ m' → a < m →
      (a ∈ keptList Q m' ↔ a ∈ keptList Q m) := by
  intro m'
  induction m' with
  | zero =>
    intro m a hm ha
    have : m = 0 := Nat.le_zero.mp hm
    subst this
    exact Iff.rfl
  | succ n ih =>
    intro m a hm ha
    rcases Nat.eq_or_lt_of_le hm with heq | hlt
    · subst heq
      exact Iff.rfl
    · have hm' : m ≤ n := Nat.lt_succ_iff.mp hlt
      have hstep : a ∈ keptList Q (n + 1) ↔ a ∈ keptList Q n := by
        simp only [keptList]
        by_cases hc : (keptList Q n).all (fun a => ! Q a n)
        · rw [if_pos hc]
          rw [List.mem_append, List.mem_singleton]
          constructor
          · rintro (h1 | h1)
            · exact h1
            · subst h1
              omega
          · exact fun h1 => Or.inl h1
        · rw [if_neg hc]
      rw [hstep]
      exact ih hm' ha

theorem keptList_succ_self_mem (Q : ℕ → ℕ → Bool) (m : ℕ) :
    m ∈ keptList Q (m + 1) ↔ ∀ a ∈ keptList Q m, Q a m = false := by
  simp only [keptList]
  by_cases hc : (keptList Q m).all (fun a => ! Q a m)
  · rw [if_pos hc]
    simp only [List.mem_append, List.mem_singleton]
    constructor
    · intro _ a ha
      have := List.all_eq_true.mp hc a ha
      simpa using this
    · intro _
      exact Or.inr trivial
  · rw [if_neg hc]
    constructor
    · intro hmem
      exact absurd (keptList_lt Q m m hmem) (lt_irrefl m)
    · intro hall
      exfalso
      apply hc
      rw [List.all_eq_true]
      intro a ha
      simpa using hall a ha

theorem keptList_mem_iff (Q : ℕ → ℕ → Bool) {m n : ℕ} (hm : m < n) :
    m ∈ keptList Q n ↔ ∀ a ∈ keptList Q m, Q a m = false := by
  rw [keptList_mono_mem Q (Nat.succ_le_of_lt hm) (Nat.lt_succ_self m)]
  exact keptList_succ_self_mem Q m

theorem keptList_adj (Q : ℕ → ℕ → Bool) {n a b : ℕ}
    (hb : b ∈ keptList Q n) (ha : a ∈ keptList Q n) (hab : a < b) :
    Q a b = false := by
  have hbn : b < n := keptList_lt Q n b hb
  have hall := (keptList_mem_iff Q hbn).mp hb
  have hab' : a ∈ keptList Q b :=
    (keptList_mono_mem Q (Nat.le_of_lt hbn) hab).mp ha
  exact hall a hab'

theorem keptList_full (Q : ℕ → ℕ → Bool) :
    ∀ n, (∀ a b, a < b → b < n → Q a b = false) →
      keptList Q n = List.range n := by
  intro n
  induction n with
  | zero => simp [keptList]
  | succ m ih =>
    intro h
    have hm : keptList Q m = List.range m :=
      ih (fun a b hab hb => h a b hab (lt_trans hb (Nat.lt_succ_self m)))
    simp only [keptList, hm]
    rw [if_pos, List.range_succ]
    rw [List.all_eq_true]
    intro a ha
    have : Q a m = false := h a m (List.mem_range.mp ha) (Nat.lt_succ_self m)
    simp [this]

theorem map_range_getD {α : Type} (l : List α) (d : α) :
    (List.range l.length).map (fun i => l.getD i d) = l := by
  apply List.ext_getElem
  · simp
  · intro i h1 h2
    have hi : i < l.length := by simpa using h2
    rw [List.getElem_map, List.getElem_range]
    exact List.getD_eq_getElem l d hi

theorem body_getD {comments : List RedditComment} {i : ℕ}
    (hi : i < comments.length) :
    (comments.getD i default).body = (bodiesOf comments).getD i "" := by
  have hi' : i < (bodiesOf comments).length := by
    simpa [bodiesOf] using hi
  rw [List.getD_eq_getElem comments default hi,
    List.getD_eq_getElem (bodiesOf comments) "" hi']
  simp [bodiesOf]

theorem flatSearch_supp_mem (f : String → String → ℚ) (th : ℚ)
    {bodies : List String} (hN : bodies.Nodup) {m : ℕ}
    (hm : m < bodies.length) :
    ∀ j, (j ∈ (flatSearch f bodies (bodies.getD m "")).filterMap
      (fun r => if r.1 ≠ bodies.getD m "" ∧ th ≤ r.2 then
        some (listIndex bodies r.1) else none)) ↔
      (j < bodies.length ∧ dupQ f th bodies m j = true) := by
  intro j
  unfold flatSearch
  rw [dedupFirst_eq_self hN, List.filterMap_map, List.mem_filterMap]
  constructor
  · rintro ⟨t, ht, htj⟩
    simp only [Function.comp] at htj
    by_cases hc : t ≠ bodies.getD m "" ∧ th ≤ f (bodies.getD m "") t
    · rw [if_pos hc] at htj
      have hj : j = listIndex bodies t := (Option.some_inj.mp htj).symm
      have hjlt : j < bodies.length := hj ▸ listIndex_lt_length ht
      have hgd : bodies.getD j "" = t := hj ▸ getD_listIndex ht
      refine ⟨hjlt, ?_⟩
      unfold dupQ
      rw [decide_eq_true_eq]
      exact ⟨fun hcon => hc.1 (hgd ▸ hcon.symm ▸ rfl), by rw [hgd]; exact hc.2⟩
    · rw [if_neg hc] at htj
      exact absurd htj (Option.noConfusion)
  · rintro ⟨hjlt, hq⟩
    unfold dupQ at hq
    rw [decide_eq_true_eq] at hq
    refine ⟨bodies.getD j "", ?_, ?_⟩
    · rw [List.getD_eq_getElem bodies "" hjlt]
      exact List.getElem_mem hjlt
    · simp only [Function.comp]
      rw [if_pos ⟨fun hcon => hq.1 hcon.symm, hq.2⟩]
      rw [listIndex_getD hN hjlt]

theorem bodiesOf_length (comments : List RedditComment) :
    (bodiesOf comments).length = comments.length := by
  simp [bodiesOf]

theorem filterFold_inv (f : String → String → ℚ) (th : ℚ)
    (comments : List RedditComment) (hN : (bodiesOf comments).Nodup) :
    ∀ m, m ≤ comments.length →
    ∃ seen : List ℕ,
      (List.range m).foldl
        (dupStep (flatSearch f) th comments (bodiesOf comments)) ([], []) =
        ((keptList (dupQ f th (bodiesOf comments)) m).map
          (fun i => comments.getD i default), seen) ∧
      ∀ j, j ∈ seen ↔
        (j ∈ keptList (dupQ f th (bodiesOf comments)) m ∨
          (j < comments.length ∧
            ∃ a ∈ keptList (dupQ f th (bodiesOf comments)) m,
              dupQ f th (bodiesOf comments) a j = true)) := by
  intro m
  induction m with
  | zero =>
    intro _
    refine ⟨[], rfl, ?_⟩
    simp [keptList]
  | succ n ih =>
    intro hn1
    have hn : n < comments.length := hn1
    obtain ⟨seen, heq, hchar⟩ := ih (Nat.le_of_lt hn)
    rw [List.range_succ, List.foldl_append, heq]
    simp only [List.foldl_cons, List.foldl_nil]
    by_cases hmem : n ∈ seen
    · have hsupp : ∃ a ∈ keptList (dupQ f th (bodiesOf comments)) n,
          dupQ f th (bodiesOf comments) a n = true := by
        rcases (hchar n).mp hmem with h1 | h1
        · exact absurd (keptList_lt _ n n h1) (lt_irrefl n)
        · exact h1.2
      have hkeq : keptList (dupQ f th (bodiesOf comments)) (n + 1) =
          keptList (dupQ f th (bodiesOf comments)) n := by
        simp only [keptList]
        rw [if_neg]
        intro hall
        rcases hsupp with ⟨a, ha, hqa⟩
        have := List.all_eq_true.mp hall a ha
        simp [hqa] at this
      have hstep : dupStep (flatSearch f) th comments (bodiesOf comments)
          ((keptList (dupQ f th (bodiesOf comments)) n).map
            (fun i => comments.getD i default), seen) n =
          ((keptList (dupQ f th (bodiesOf comments)) n).map
            (fun i => comments.getD i default), seen) := by
        simp [dupStep, hmem]
      rw [hstep, hkeq]
      exact ⟨seen, rfl, fun j => by rw [hchar j]⟩
    · have hnosupp : ¬ ∃ a ∈ keptList (dupQ f th (bodiesOf comments)) n,
          dupQ f th (bodiesOf comments) a n = true := by
        intro hcon
        exact hmem ((hchar n).mpr (Or.inr ⟨hn, hcon⟩))
      have hall : (keptList (dupQ f th (bodiesOf comments)) n).all
          (fun a => ! dupQ f th (bodiesOf comments) a n) = true := by
        rw [List.all_eq_true]
        intro a ha
        by_contra hcon
        apply hnosupp
        refine ⟨a, ha, ?_⟩
        simpa using hcon
      have hkeq : keptList (dupQ f th (bodiesOf comments)) (n + 1) =
          keptList (dupQ f th (bodiesOf comments)) n ++ [n] := by
        simp only [keptList]
        rw [if_pos hall]
      have hbl : n < (bodiesOf comments).length := by
        rw [bodiesOf_length]
        exact hn
      have hstep : dupStep (flatSearch f) th comments (bodiesOf comments)
          ((keptList (dupQ f th (bodiesOf comments)) n).map
            (fun i => comments.getD i default), seen) n =
          ((keptList (dupQ f th (bodiesOf comments)) n).map
            (fun i => comments.getD i default) ++ [comments.getD n default],
            (seen ++ [n]) ++
            (flatSearch f (bodiesOf comments)
              ((bodiesOf comments).getD n "")).filterMap
              (fun r => if r.1 ≠ (bodiesOf comments).getD n "" ∧ th ≤ r.2
                then some (listIndex (bodiesOf comments) r.1) else none)) := by
        simp [dupStep, hmem]
      rw [hstep, hkeq]
      refine ⟨(seen ++ [n]) ++
        (flatSearch f (bodiesOf comments)
          ((bodiesOf comments).getD n "")).filterMap
          (fun r => if r.1 ≠ (bodiesOf comments).getD n "" ∧ th ≤ r.2
            then some (listIndex (bodiesOf comments) r.1) else none), ?_, ?_⟩
      · rw [List.map_append]
        rfl
      · intro j
        have hsuppiff := flatSearch_supp_mem f th hN hbl j
        rw [bodiesOf_length] at hsuppiff
        constructor
        · intro hj
          rcases List.mem_append.mp hj with hj1 | hj2
          · rcases List.mem_append.mp hj1 with hs | hjn
            · rcases (hchar j).mp hs with h1 | ⟨hjl, a, ha, hq⟩
              · exact Or.inl (List.mem_append.mpr (Or.inl h1))
              · exact Or.inr ⟨hjl, a, List.mem_append.mpr (Or.inl ha), hq⟩
            · exact Or.inl (List.mem_append.mpr (Or.inr hjn))
          · have h2 := hsuppiff.mp hj2
            exact Or.inr ⟨h2.1, n,
              List.mem_append.mpr (Or.inr (List.mem_singleton.mpr rfl)), h2.2⟩
        · intro hj
          rcases hj with h1 | ⟨hjl, a, ha, hq⟩
          · rcases List.mem_append.mp h1 with h2 | h2
            · exact List.mem_append.mpr (Or.inl (List.mem_append.mpr
                (Or.inl ((hchar j).mpr (Or.inl h2)))))
            · exact List.mem_append.mpr (Or.inl (List.mem_append.mpr
                (Or.inr h2)))
          · rcases List.mem_append.mp ha with h2 | h2
            · exact List.mem_append.mpr (Or.inl (List.mem_append.mpr
                (Or.inl ((hchar j).mpr (Or.inr ⟨hjl, a, h2, hq⟩)))))
            · have han : a = n := List.mem_singleton.mp h2
              subst han
              exact List.mem_append.mpr (Or.inr (hsuppiff.mpr ⟨hjl, hq⟩))

theorem filterDupWith_flat (f : String → String → ℚ) (th : ℚ)
    (comments : List RedditComment) (hN : (bodiesOf comments).Nodup) :
    filterDupWith (flatSearch f) th comments =
      (keptList (dupQ f th (bodiesOf comments)) comments.length).map
        (fun i => comments.getD i default) := by
  by_cases hc : comments.isEmpty
  · have hnil : comments = [] := by
      cases comments
      · rfl
      · exact absurd hc (by simp)
    subst hnil
    simp [filterDupWith, keptList]
  · obtain ⟨seen, heq, _⟩ :=
      filterFold_inv f th comments hN comments.length (le_refl _)
    unfold filterDupWith
    rw [if_neg hc]
    show ((List.range comments.length).foldl
      (dupStep (flatSearch f) th comments (bodiesOf comments)) ([], [])).1 = _
    rw [heq]

/-- C8 amended: the duplicate filter is a fixed point on its own output when
the comment bodies are pairwise distinct and the retrieval backend returns,
for every indexed corpus, exactly the corpus's distinct texts scored by a
corpus-independent pairwise function (`flatSearch f`).  The actual hybrid
backend violates corpus-independence (BM25 scores and the min-max
normalization change with the corpus), and with duplicate bodies even a
corpus-independent backend fails, as the counterexample shows. -/
theorem C8_fixed_point_flat (f : String → String → ℚ) (th : ℚ)
    (comments : List RedditComment) (hN : (bodiesOf comments).Nodup) :
    filterDupWith (flatSearch f) th
      (filterDupWith (flatSearch f) th comments) =
      filterDupWith (flatSearch f) th comments := by
  have h1 := filterDupWith_flat f th comments hN
  have hklt := keptList_lt (dupQ f th (bodiesOf comments)) comments.length
  have hsorted := keptList_sorted (dupQ f th (bodiesOf comments))
    comments.length
  have hbodies2 : bodiesOf (filterDupWith (flatSearch f) th comments) =
      (keptList (dupQ f th (bodiesOf comments)) comments.length).map
        (fun i => (bodiesOf comments).getD i "") := by
    rw [h1]
    unfold bodiesOf
    rw [List.map_map]
    apply List.map_congr_left
    intro i hi
    exact body_getD (hklt i hi)
  have hN2 : (bodiesOf (filterDupWith (flatSearch f) th comments)).Nodup := by
    rw [hbodies2]
    refine List.Nodup.map_on ?_ (keptList_nodup _ _)
    intro x hx y hy hxy
    have hxb : x < (bodiesOf comments).length := by
      rw [bodiesOf_length]
      exact hklt x hx
    have hyb : y < (bodiesOf comments).length := by
      rw [bodiesOf_length]
      exact hklt y hy
    exact nodup_getD_inj hN "" hxb hyb hxy
  have h2 := filterDupWith_flat f th
    (filterDupWith (flatSearch f) th comments) hN2
  have hSlen : (filterDupWith (flatSearch f) th comments).length =
      (keptList (dupQ f th (bodiesOf comments)) comments.length).length := by
    rw [h1, List.length_map]
  have hfull : keptList
      (dupQ f th (bodiesOf (filterDupWith (flatSearch f) th comments)))
      (filterDupWith (flatSearch f) th comments).length =
      List.range (filterDupWith (flatSearch f) th comments).length := by
    apply keptList_full
    intro a b hab hbS
    have hb : b < (keptList (dupQ f th (bodiesOf comments))
        comments.length).length := by
      rw [← hSlen]
      exact hbS
    have ha : a < (keptList (dupQ f th (bodiesOf comments))
        comments.length).length := lt_trans hab hb
    have hinc : (keptList (dupQ f th (bodiesOf comments))
        comments.length).get ⟨a, ha⟩ <
        (keptList (dupQ f th (bodiesOf comments)) comments.length).get
          ⟨b, hb⟩ :=
      List.pairwise_iff_get.mp hsorted ⟨a, ha⟩ ⟨b, hb⟩ hab
    have hQfalse : dupQ f th (bodiesOf comments)
        ((keptList (dupQ f th (bodiesOf comments)) comments.length).get
          ⟨a, ha⟩)
        ((keptList (dupQ f th (bodiesOf comments)) comments.length).get
          ⟨b, hb⟩) = false :=
      keptList_adj _ (List.get_mem _ _ _) (List.get_mem _ _ _) hinc
    have hgeta : (bodiesOf (filterDupWith (flatSearch f) th comments)).getD
        a "" = (bodiesOf comments).getD
          ((keptList (dupQ f th (bodiesOf comments))
            comments.length).get ⟨a, ha⟩) "" := by
      rw [hbodies2]
      have ha' : a < ((keptList (dupQ f th (bodiesOf comments))
          comments.length).map
          (fun i => (bodiesOf comments).getD i "")).length := by
        rw [List.length_map]
        exact ha
      rw [List.getD_eq_getElem _ "" ha', List.getElem_map]
      rfl
    have hgetb : (bodiesOf (filterDupWith (flatSearch f) th comments)).getD
        b "" = (bodiesOf comments).getD
          ((keptList (dupQ f th (bodiesOf comments))
            comments.length).get ⟨b, hb⟩) "" := by
      rw [hbodies2]
      have hb' : b < ((keptList (dupQ f th (bodiesOf comments))
          comments.length).map
          (fun i => (bodiesOf comments).getD i "")).length := by
        rw [List.length_map]
        exact hb
      rw [List.getD_eq_getElem _ "" hb', List.getElem_map]
      rfl
    unfold dupQ
    unfold dupQ at hQfalse
    rw [hgeta, hgetb]
    exact hQfalse
  rw [h2, hfull, map_range_getD]

/-- C8 witness: with pairwise-distinct bodies and a corpus-independent
pairwise scorer, filtering twice equals filtering once on the concrete
three-comment fixture. -/
theorem C8_fixed_point_flat_witness :
    (bodiesOf [mkC "0" b0 0, mkC "1" b1 0, mkC "3" b3 0]).Nodup ∧
    filterDupWith (flatSearch (fun q d => if q = d then 1 else 0)) (4 / 5)
      (filterDupWith (flatSearch (fun q d => if q = d then 1 else 0)) (4 / 5)
        [mkC "0" b0 0, mkC "1" b1 0, mkC "3" b3 0]) =
      filterDupWith (flatSearch (fun q d => if q = d then 1 else 0)) (4 / 5)
        [mkC "0" b0 0, mkC "1" b1 0, mkC "3" b3 0] :=
  ⟨by decide, C8_fixed_point_flat (fun q d => if q = d then 1 else 0) (4 / 5)
    [mkC "0" b0 0, mkC "1" b1 0, mkC "3" b3 0] (by decide)⟩

/-- C1: the call site `run` line 518 passes the two pipeline flags
positionally into `get_comments(post, sort_by_score, filter_duplicates)`, so
with the constructor defaults (`remove_duplicates = True`,
`sort_by_score = False`) the pipeline sorts by score and skips duplicate
filtering — the opposite of what the flags name.  On the fixture post, the
run-call yields the score-sorted, unfiltered `[cb1, ca1]`, while honoring the
flags (no sort, dedup) yields `[ca1]`. -/
theorem C1_run_flags_swapped :
    p1.remove_duplicates = true ∧ p1.sort_by_score = false ∧
    RedditCommentsPipeline.run_select p1 ext1 dur1 post1 = [cb1, ca1] ∧
    RedditCommentsPipeline.get_comments p1 ext1 dur1 post1 p1.sort_by_score
      p1.remove_duplicates = [ca1] ∧
    ([cb1, ca1] : List RedditComment) ≠ [ca1] := by
  refine ⟨rfl, rfl, ?_, ?_, ?_⟩ <;> decide

end ReelsMaker
